import Mathlib

/-!
Verification of the menpo feature-extraction core (`menpo/features/base.py`).

The Python source is shallowly embedded: Python non-negative integers become
`Nat` (with explicit masking `&&& (2 ^ max_bits - 1)` where the code masks),
Python ints that can be negative become `Int`, lists become `List`,
floating-point pixel values become `ℝ` (for the gradient-based features) or
`ℚ` (for the HOG pre-normalization, where only exact scaling by 255 matters),
and functions that raise `ValueError` become `Except String _` / `Option _`.
-/

namespace Menpo

/-! ## Bit rotation (`circural_rotation_left` / `circural_rotation_right`)

Embedding of `menpo/features/base.py`, lines 483-504.  Python's `<<`, `>>`,
`&`, `|` on non-negative ints are `Nat.shiftLeft`, `Nat.shiftRight`,
`Nat.land`, `Nat.lor`. -/

/-- `circural_rotation_left(val, rot_bits, max_bits)` from the source:
`(val << rot_bits % max_bits) & (2**max_bits - 1)
   | ((val & (2**max_bits - 1)) >> (max_bits - (rot_bits % max_bits)))`. -/
def circural_rotation_left (val rot_bits max_bits : Nat) : Nat :=
  ((val <<< (rot_bits % max_bits)) &&& (2 ^ max_bits - 1)) |||
    ((val &&& (2 ^ max_bits - 1)) >>> (max_bits - rot_bits % max_bits))

/-- `circural_rotation_right(val, rot_bits, max_bits)` from the source:
`((val & (2**max_bits - 1)) >> rot_bits % max_bits)
   | (val << (max_bits - (rot_bits % max_bits)) & (2**max_bits - 1))`. -/
def circural_rotation_right (val rot_bits max_bits : Nat) : Nat :=
  ((val &&& (2 ^ max_bits - 1)) >>> (rot_bits % max_bits)) |||
    ((val <<< (max_bits - rot_bits % max_bits)) &&& (2 ^ max_bits - 1))

/-- Bit `i` of a circular right rotation: bit `(i + k) mod n` of the input
(and `false` above the `n`-bit window). -/
theorem testBit_circural_rotation_right (v k n i : Nat) (hn : 0 < n) :
    (circural_rotation_right v k n).testBit i =
      (decide (i < n) && v.testBit ((i + k % n) % n)) := by
  have hkn : k % n < n := Nat.mod_lt _ hn
  simp only [circural_rotation_right, Nat.testBit_or, Nat.testBit_and,
    Nat.testBit_shiftLeft, Nat.testBit_shiftRight, Nat.testBit_two_pow_sub_one, ge_iff_le]
  rcases Nat.lt_or_ge i n with hin | hin
  · rcases Nat.lt_or_ge (i + k % n) n with hsum | hsum
    · have e : (i + k % n) % n = k % n + i := by
        rw [Nat.mod_eq_of_lt hsum]; omega
      have h1 : ¬ (n - k % n ≤ i) := by omega
      simp [e, h1, hin, hsum, Nat.add_comm]
    · have e : (i + k % n) % n = i - (n - k % n) := by
        rw [Nat.mod_eq_sub_mod hsum]
        have e2 : i + k % n - n = i - (n - k % n) := by omega
        rw [e2, Nat.mod_eq_of_lt (by omega)]
      have h1 : ¬ (k % n + i < n) := by omega
      have h2 : n - k % n ≤ i := by omega
      simp [e, h1, h2, hin]
  · have h1 : ¬ (k % n + i < n) := by omega
    have h2 : ¬ (i < n) := by omega
    simp [h1, h2]

/-- Bit `i` of a circular left rotation: bit `(i + (n - k mod n)) mod n` of
the input (and `false` above the `n`-bit window). -/
theorem testBit_circural_rotation_left (v k n i : Nat) (hn : 0 < n) :
    (circural_rotation_left v k n).testBit i =
      (decide (i < n) && v.testBit ((i + (n - k % n)) % n)) := by
  have hkn : k % n < n := Nat.mod_lt _ hn
  simp only [circural_rotation_left, Nat.testBit_or, Nat.testBit_and,
    Nat.testBit_shiftLeft, Nat.testBit_shiftRight, Nat.testBit_two_pow_sub_one, ge_iff_le]
  rcases Nat.lt_or_ge i n with hin | hin
  · rcases Nat.lt_or_ge i (k % n) with hik | hik
    · have e : (i + (n - k % n)) % n = n - k % n + i := by
        rw [Nat.mod_eq_of_lt (by omega)]; omega
      have h1 : ¬ (k % n ≤ i) := by omega
      have h2 : n - k % n + i < n := by omega
      simp [e, h1, h2, hin]
    · have e : (i + (n - k % n)) % n = i - k % n := by
        rw [Nat.mod_eq_sub_mod (by omega)]
        have e2 : i + (n - k % n) - n = i - k % n := by omega
        rw [e2, Nat.mod_eq_of_lt (by omega)]
      have h2 : ¬ (n - k % n + i < n) := by omega
      simp [e, hik, h2, hin]
  · have h1 : ¬ (i < n) := by omega
    have h2 : ¬ (n - k % n + i < n) := by omega
    simp [h1, h2]

/-- C4: for every value `v`, every `k ≥ 1` and every `n ≥ 1`, a circular right
rotation followed by a circular left rotation by the same amount over an
`n`-bit pattern returns `v` masked to its low `n` bits.  Both functions are
embedded as total functions: neither has an error condition. -/
theorem circural_rotation_left_right_inverse (v k n : Nat) (_hk : 1 ≤ k) (hn : 1 ≤ n) :
    circural_rotation_left (circural_rotation_right v k n) k n = v % 2 ^ n := by
  apply Nat.eq_of_testBit_eq
  intro i
  rw [testBit_circural_rotation_left _ k n i hn,
    testBit_circural_rotation_right v k n _ hn, Nat.testBit_mod_two_pow]
  rcases Nat.lt_or_ge i n with hin | hin
  · have hj : (i + (n - k % n)) % n < n := Nat.mod_lt _ hn
    have e : ((i + (n - k % n)) % n + k % n) % n = i := by
      rw [Nat.mod_add_mod]
      have e2 : i + (n - k % n) + k % n = i + n := by
        have : k % n < n := Nat.mod_lt _ hn
        omega
      rw [e2, Nat.add_mod_right, Nat.mod_eq_of_lt hin]
    simp [hin, hj, e]
  · have h1 : ¬ (i < n) := by omega
    simp [h1]

/-- Witness for C4: the inverse law evaluated at `v = 5`, `k = 1`, `n = 3`. -/
theorem circural_rotation_left_right_inverse_witness :
    1 ≤ 1 ∧ 1 ≤ 3 ∧
      circural_rotation_left (circural_rotation_right 5 1 3) 1 3 = 5 % 2 ^ 3 :=
  ⟨by decide, by decide,
    circural_rotation_left_right_inverse 5 1 3 (by decide) (by decide)⟩

/-- Rotation keeps values inside the `n`-bit window. -/
theorem circural_rotation_left_lt (v k n : Nat) :
    circural_rotation_left v k n < 2 ^ n := by
  apply Nat.or_lt_two_pow
  · exact Nat.and_lt_two_pow _ (by have := Nat.two_pow_pos n; omega)
  · calc (v &&& (2 ^ n - 1)) >>> (n - k % n) ≤ v &&& (2 ^ n - 1) := by
          rw [Nat.shiftRight_eq_div_pow]; exact Nat.div_le_self _ _
      _ ≤ 2 ^ n - 1 := Nat.and_le_right
      _ < 2 ^ n := by have := Nat.two_pow_pos n; omega

/-! ## Popcount

Embedding of the Python idiom `bin(c).count('1')` (number of 1-bits of a
non-negative integer). -/

/-- Structural helper for `popcount`: the first argument is fuel, always at
least the number being counted. -/
def popcountAux : Nat → Nat → Nat
  | 0, _ => 0
  | fuel + 1, n => if n = 0 then 0 else n % 2 + popcountAux fuel (n / 2)

/-- Number of 1-bits in the binary representation of `n`. -/
def popcount (n : Nat) : Nat := popcountAux n n

theorem popcountAux_congr : ∀ fuel : Nat, ∀ n fuel' : Nat, n ≤ fuel → n ≤ fuel' →
    popcountAux fuel n = popcountAux fuel' n := by
  intro fuel
  induction fuel with
  | zero =>
    intro n fuel' h _
    have hn : n = 0 := Nat.le_zero.mp h
    subst hn
    cases fuel' <;> simp [popcountAux]
  | succ fuel ih =>
    intro n fuel' h h'
    cases fuel' with
    | zero =>
      have hn : n = 0 := Nat.le_zero.mp h'
      subst hn
      simp [popcountAux]
    | succ fuel' =>
      simp only [popcountAux]
      rcases Nat.eq_zero_or_pos n with rfl | hpos
      · simp
      · have hne : ¬ n = 0 := by omega
        simp only [hne, if_false]
        have := ih (n / 2) fuel' (by omega) (by omega)
        omega

theorem popcount_zero : popcount 0 = 0 := rfl

theorem popcount_def (n : Nat) : popcount n = n % 2 + popcount (n / 2) := by
  cases n with
  | zero => simp [popcount, popcountAux]
  | succ m =>
    show popcountAux (m + 1) (m + 1) = _
    simp only [popcountAux, Nat.succ_ne_zero, if_false]
    have : popcountAux m ((m + 1) / 2) = popcountAux ((m + 1) / 2) ((m + 1) / 2) :=
      popcountAux_congr m _ _ (by omega) (by omega)
    rw [this]
    rfl

theorem popcount_one : popcount 1 = 1 := by
  rw [popcount_def]; simp [popcount_zero]

/-- `popcount` splits at any bit boundary. -/
theorem popcount_split (i : Nat) : ∀ x : Nat,
    popcount x = popcount (x % 2 ^ i) + popcount (x / 2 ^ i) := by
  induction i with
  | zero => intro x; simp [popcount_zero, Nat.mod_one]
  | succ i ih =>
    intro x
    have h1 : x % 2 ^ (i + 1) % 2 = x % 2 := by
      rw [Nat.mod_mod_of_dvd]
      exact dvd_pow_self 2 (Nat.succ_ne_zero i)
    have h2 : x % 2 ^ (i + 1) / 2 = x / 2 % 2 ^ i := by
      rw [Nat.pow_succ, Nat.mul_comm, Nat.mod_mul_right_div_self]
    have h3 : x / 2 ^ (i + 1) = x / 2 / 2 ^ i := by
      rw [Nat.pow_succ, Nat.mul_comm, Nat.div_div_eq_div_mul]
    calc popcount x = x % 2 + popcount (x / 2) := popcount_def x
      _ = x % 2 + (popcount (x / 2 % 2 ^ i) + popcount (x / 2 / 2 ^ i)) := by rw [ih]
      _ = (x % 2 + popcount (x / 2 % 2 ^ i)) + popcount (x / 2 / 2 ^ i) := by omega
      _ = popcount (x % 2 ^ (i + 1)) + popcount (x / 2 ^ (i + 1)) := by
          rw [popcount_def (x % 2 ^ (i + 1)), h1, h2, h3]

/-- `popcount` as a sum over the testable bits. -/
theorem popcount_eq_sum (n : Nat) : ∀ x : Nat, x < 2 ^ n →
    popcount x = ∑ i ∈ Finset.range n, (if x.testBit i then 1 else 0) := by
  induction n with
  | zero =>
    intro x hx
    interval_cases x
    simp [popcount_zero]
  | succ n ih =>
    intro x hx
    rw [Finset.sum_range_succ']
    have hx2 : x / 2 < 2 ^ n := by
      rw [Nat.div_lt_iff_lt_mul (by norm_num)]
      calc x < 2 ^ (n + 1) := hx
        _ = 2 ^ n * 2 := by ring
    have e1 : ∀ i, x.testBit (i + 1) = (x / 2).testBit i := fun i => Nat.testBit_add_one x i
    have e0 : (if x.testBit 0 then 1 else 0) = x % 2 := by
      rw [Nat.testBit_zero]
      rcases Nat.mod_two_eq_zero_or_one x with h | h <;> simp [h]
    calc popcount x = x % 2 + popcount (x / 2) := popcount_def x
      _ = x % 2 + ∑ i ∈ Finset.range n, (if (x / 2).testBit i then 1 else 0) := by
          rw [ih _ hx2]
      _ = (∑ i ∈ Finset.range n, (if x.testBit (i + 1) then 1 else 0)) +
            (if x.testBit 0 then 1 else 0) := by
          simp only [e1, e0]; omega

/-! ## LBP uniform-pattern counting

The mapping-table loops measure, for each raw code `c`, the number of circular
bit transitions `num_trans = popcount(c XOR rotate_left(c, 1, n))`
(`base.py`, lines 442-443 and 469-470). -/

/-- Circular bit-transition count of an `n`-bit code, exactly as computed in
the source: the 1-bits of `c ^^^ circural_rotation_left c 1 n`. -/
def num_trans (n c : Nat) : Nat :=
  popcount (c ^^^ circural_rotation_left c 1 n)

/-- The transition count of an `n`-bit code is even: each term of the
bit-difference sum appears twice when reindexed along the rotation. -/
theorem num_trans_even (n c : Nat) (hn : 0 < n) (hc : c < 2 ^ n) :
    num_trans n c % 2 = 0 := by
  have hD : c ^^^ circural_rotation_left c 1 n < 2 ^ n :=
    Nat.xor_lt_two_pow hc (circural_rotation_left_lt c 1 n)
  suffices h : ((num_trans n c : ZMod 2) = 0) by
    have h2 := (ZMod.natCast_zmod_eq_zero_iff_dvd _ 2).mp h
    omega
  have hsum := popcount_eq_sum n _ hD
  rw [num_trans, hsum]
  push_cast
  have hterm : ∀ i ∈ Finset.range n,
      (if (c ^^^ circural_rotation_left c 1 n).testBit i then (1 : ZMod 2) else 0) =
        (if c.testBit i then (1 : ZMod 2) else 0) +
          (if c.testBit ((i + (n - 1 % n)) % n) then (1 : ZMod 2) else 0) := by
    intro i hi
    have hin : i < n := Finset.mem_range.mp hi
    rw [Nat.testBit_xor, testBit_circural_rotation_left c 1 n i hn]
    simp only [hin, decide_eq_true_eq, decide_True, Bool.true_and]
    cases c.testBit i <;> cases c.testBit ((i + (n - 1 % n)) % n) <;> decide
  rw [Finset.sum_congr rfl hterm, Finset.sum_add_distrib]
  have hre : (∑ i ∈ Finset.range n,
      (if c.testBit ((i + (n - 1 % n)) % n) then (1 : ZMod 2) else 0)) =
        ∑ i ∈ Finset.range n, (if c.testBit i then (1 : ZMod 2) else 0) := by
    refine Finset.sum_nbij' (fun i => (i + (n - 1 % n)) % n) (fun j => (j + 1 % n) % n)
      ?_ ?_ ?_ ?_ ?_
    · intro a _; exact Finset.mem_range.mpr (Nat.mod_lt _ hn)
    · intro a _; exact Finset.mem_range.mpr (Nat.mod_lt _ hn)
    · intro a ha
      have h1 : 1 % n < n := Nat.mod_lt _ hn
      have ha' : a < n := Finset.mem_range.mp ha
      dsimp only
      rw [Nat.mod_add_mod]
      have e : a + (n - 1 % n) + 1 % n = a + n := by omega
      rw [e, Nat.add_mod_right, Nat.mod_eq_of_lt ha']
    · intro a ha
      have h1 : 1 % n < n := Nat.mod_lt _ hn
      have ha' : a < n := Finset.mem_range.mp ha
      dsimp only
      rw [Nat.mod_add_mod]
      have e : a + 1 % n + (n - 1 % n) = a + n := by omega
      rw [e, Nat.add_mod_right, Nat.mod_eq_of_lt ha']
    · intro a _; rfl
  rw [hre]
  exact CharTwo.add_self_eq_zero _

/-- A code below `2 ^ n` is recoverable from its lowest bit together with its
circular bit-difference pattern. -/
theorem xor_rotl_inj {n c c' : Nat} (hn : 0 < n) (hc : c < 2 ^ n) (hc' : c' < 2 ^ n)
    (h0 : c.testBit 0 = c'.testBit 0)
    (hD : c ^^^ circural_rotation_left c 1 n = c' ^^^ circural_rotation_left c' 1 n) :
    c = c' := by
  apply Nat.eq_of_testBit_eq
  intro i
  induction i using Nat.strong_induction_on with
  | _ i ih =>
    rcases Nat.eq_zero_or_pos i with rfl | hipos
    · exact h0
    rcases Nat.lt_or_ge i n with hin | hin
    · have hn2 : 2 ≤ n := by omega
      have hDi := congrArg (fun x => Nat.testBit x i) hD
      simp only [Nat.testBit_xor, testBit_circural_rotation_left _ 1 n i hn, hin,
        decide_eq_true_eq, decide_True, Bool.true_and] at hDi
      have hsig : (i + (n - 1 % n)) % n = i - 1 := by
        have h1 : (1 : Nat) % n = 1 := Nat.mod_eq_of_lt hn2
        rw [h1, Nat.mod_eq_sub_mod (by omega), Nat.mod_eq_of_lt (by omega)]
        omega
      rw [hsig] at hDi
      have hprev : c.testBit (i - 1) = c'.testBit (i - 1) := ih (i - 1) (by omega)
      rw [hprev] at hDi
      cases hb : c'.testBit (i - 1) <;> rw [hb] at hDi <;>
        simpa using hDi
    · have h1 : c < 2 ^ i := lt_of_lt_of_le hc (Nat.pow_le_pow_right (by norm_num) hin)
      have h2 : c' < 2 ^ i := lt_of_lt_of_le hc' (Nat.pow_le_pow_right (by norm_num) hin)
      rw [Nat.testBit_lt_two_pow h1, Nat.testBit_lt_two_pow h2]

theorem popcount_two_pow_add (m d : Nat) (hd : d < 2 ^ m) :
    popcount (2 ^ m + d) = popcount d + 1 := by
  have h1 : (2 ^ m + d) % 2 ^ m = d := by
    rw [Nat.add_mod_left, Nat.mod_eq_of_lt hd]
  have h2 : (2 ^ m + d) / 2 ^ m = 1 := by
    rw [Nat.add_comm, Nat.add_div_right _ (Nat.two_pow_pos m),
      Nat.div_eq_of_lt hd]
  rw [popcount_split m (2 ^ m + d), h1, h2, popcount_one]

/-- In `[0, 2^n)` there are exactly `n.choose k` numbers with `popcount = k`. -/
theorem card_popcount_eq (n : Nat) : ∀ k : Nat,
    ((Finset.range (2 ^ n)).filter (fun d => popcount d = k)).card = n.choose k := by
  induction n with
  | zero =>
    intro k
    rw [pow_zero, Finset.range_one, Finset.filter_singleton]
    cases k with
    | zero => simp [popcount_zero]
    | succ k => simp [popcount_zero, Nat.choose_zero_succ]
  | succ n ih =>
    intro k
    have hsplit : (2 : Nat) ^ (n + 1) = 2 ^ n + 2 ^ n := by ring
    rw [hsplit, Finset.range_add, Finset.filter_union,
      Finset.card_union_of_disjoint
        (Finset.disjoint_filter_filter (Finset.disjoint_range_addLeftEmbedding _ _)),
      Finset.filter_map, Finset.card_map]
    have hcongr : (Finset.range (2 ^ n)).filter
        ((fun d => popcount d = k) ∘ (addLeftEmbedding (2 ^ n))) =
          (Finset.range (2 ^ n)).filter (fun d => popcount d + 1 = k) := by
      apply Finset.filter_congr
      intro d hd
      have hd' : d < 2 ^ n := Finset.mem_range.mp hd
      simp [Function.comp, addLeftEmbedding_apply, popcount_two_pow_add n d hd']
    rw [hcongr, ih k]
    cases k with
    | zero =>
      have : (Finset.range (2 ^ n)).filter (fun d => popcount d + 1 = 0) = ∅ := by
        apply Finset.filter_false_of_mem
        intro d _
        omega
      simp [this]
    | succ k =>
      have hcongr2 : (Finset.range (2 ^ n)).filter (fun d => popcount d + 1 = k + 1) =
          (Finset.range (2 ^ n)).filter (fun d => popcount d = k) := by
        apply Finset.filter_congr
        intro d _
        omega
      rw [hcongr2, ih k, Nat.choose_succ_succ]
      simp only [Nat.succ_eq_add_one]
      omega

/-- In `[0, 2^(n+1))` exactly half of the numbers have an even `popcount`. -/
theorem card_popcount_even (n : Nat) :
    ((Finset.range (2 ^ (n + 1))).filter (fun d => popcount d % 2 = 0)).card = 2 ^ n := by
  have hsplit : (2 : Nat) ^ (n + 1) = 2 ^ n + 2 ^ n := by ring
  rw [hsplit, Finset.range_add, Finset.filter_union,
    Finset.card_union_of_disjoint
      (Finset.disjoint_filter_filter (Finset.disjoint_range_addLeftEmbedding _ _)),
    Finset.filter_map, Finset.card_map]
  have hcongr : (Finset.range (2 ^ n)).filter
      ((fun d => popcount d % 2 = 0) ∘ (addLeftEmbedding (2 ^ n))) =
        (Finset.range (2 ^ n)).filter (fun d => ¬ popcount d % 2 = 0) := by
    apply Finset.filter_congr
    intro d hd
    have hd' : d < 2 ^ n := Finset.mem_range.mp hd
    have := popcount_two_pow_add n d hd'
    simp only [Function.comp, addLeftEmbedding_apply, this]
    omega
  rw [hcongr, Finset.filter_card_add_filter_neg_card_eq_card, Finset.card_range]

/-- Number of uniform codes (at most two circular bit transitions) among the
`2 ^ n` raw LBP codes. -/
def uniformCount (n : Nat) : Nat :=
  ((Finset.range (2 ^ n)).filter (fun c => num_trans n c ≤ 2)).card

/-- The combinatorial identity behind the `u2` sentinel: exactly
`n * (n - 1) + 2` of the `2 ^ n` raw codes are uniform. -/
theorem uniformCount_eq (n : Nat) (hn : 1 ≤ n) :
    uniformCount n = n * (n - 1) + 2 := by
  obtain ⟨m, rfl⟩ : ∃ m, n = m + 1 := ⟨n - 1, by omega⟩
  clear hn
  set N := m + 1 with hN
  have hNpos : 0 < N := Nat.succ_pos m
  set Φ : Nat → Bool × Nat :=
    fun c => (c.testBit 0, c ^^^ circural_rotation_left c 1 N) with hΦ
  have hinj : Set.InjOn Φ (Finset.range (2 ^ N)) := by
    intro c hc c' hc' h
    simp only [Finset.coe_range, Set.mem_Iio] at hc hc'
    have h1 : c.testBit 0 = c'.testBit 0 := congrArg Prod.fst h
    have h2 : c ^^^ circural_rotation_left c 1 N =
        c' ^^^ circural_rotation_left c' 1 N := congrArg Prod.snd h
    exact xor_rotl_inj hNpos hc hc' h1 h2
  set E : Finset Nat :=
    (Finset.range (2 ^ N)).filter (fun d => popcount d % 2 = 0) with hE
  set T : Finset (Bool × Nat) := Finset.univ ×ˢ E with hT
  have himgsub : (Finset.range (2 ^ N)).image Φ ⊆ T := by
    intro p hp
    obtain ⟨c, hc, rfl⟩ := Finset.mem_image.mp hp
    have hc' : c < 2 ^ N := Finset.mem_range.mp hc
    refine Finset.mem_product.mpr ⟨Finset.mem_univ _, ?_⟩
    refine Finset.mem_filter.mpr ⟨?_, ?_⟩
    · exact Finset.mem_range.mpr
        (Nat.xor_lt_two_pow hc' (circural_rotation_left_lt c 1 N))
    · exact num_trans_even N c hNpos hc'
  have hTcard : T.card = 2 ^ N := by
    rw [hT, Finset.card_product, hE, card_popcount_even m]
    simp [hN, pow_succ, Nat.mul_comm]
  have himg : (Finset.range (2 ^ N)).image Φ = T := by
    apply Finset.eq_of_subset_of_card_le himgsub
    rw [hTcard, Finset.card_image_of_injOn hinj, Finset.card_range]
  have hstep1 : uniformCount N =
      ((Finset.range (2 ^ N)).filter (fun c => popcount ((Φ c).2) ≤ 2)).card := by
    rfl
  rw [hstep1, ← Finset.card_image_of_injOn
    (hinj.mono (Finset.coe_subset.mpr (Finset.filter_subset _ _)))]
  have hstep2 : ((Finset.range (2 ^ N)).filter (fun c => popcount ((Φ c).2) ≤ 2)).image Φ =
      T.filter (fun p => popcount p.2 ≤ 2) := by
    rw [← himg, Finset.filter_image]
  rw [hstep2]
  have hstep3 : T.filter (fun p => popcount p.2 ≤ 2) =
      Finset.univ ×ˢ (E.filter (fun d => popcount d ≤ 2)) := by
    ext ⟨b, d⟩
    simp only [hT, Finset.mem_filter, Finset.mem_product, Finset.mem_univ, true_and]
  rw [hstep3, Finset.card_product, Finset.card_univ, Fintype.card_bool]
  have hstep4 : E.filter (fun d => popcount d ≤ 2) =
      ((Finset.range (2 ^ N)).filter (fun d => popcount d = 0)) ∪
        ((Finset.range (2 ^ N)).filter (fun d => popcount d = 2)) := by
    rw [hE, Finset.filter_filter, ← Finset.filter_or]
    apply Finset.filter_congr
    intro d _
    constructor
    · rintro ⟨h1, h2⟩; omega
    · rintro (h | h) <;> simp [h]
  rw [hstep4, Finset.card_union_of_disjoint, card_popcount_eq N 0, card_popcount_eq N 2,
    Nat.choose_zero_right, Nat.choose_two_right]
  · have heven : Even (N * (N - 1)) := Nat.even_mul_pred_self N
    have hdiv : 2 * (N * (N - 1) / 2) = N * (N - 1) :=
      Nat.two_mul_div_two_of_even heven
    omega
  · rw [Finset.disjoint_left]
    intro a ha hb
    have h1 := (Finset.mem_filter.mp ha).2
    have h2 := (Finset.mem_filter.mp hb).2
    omega

/-! ## `_lbp_mapping_table` (`base.py`, lines 411-480)

The Python function initialises `table = range(2**n_samples)` (a list in
Python 2) and overwrites entries in ascending order of the code `c`; Python
ints become `Int`.  Each loop is embedded as a `List.foldl` over
`List.range (2 ^ n_samples)` carrying the loop state. -/

/-- One iteration of the `u2` loop (lines 439-448): state is
`(table, index)`. -/
def u2_step (n : Nat) (st : List Int × Int) (c : Nat) : List Int × Int :=
  if num_trans n c ≤ 2 then (st.1.set c st.2, st.2 + 1)
  else (st.1.set c (((n : Int) * ((n : Int) - 1) + 3) - 1), st.2)

/-- The `u2` branch (lines 435-448): returns `(table, new_max)` with
`new_max = n_samples * (n_samples - 1) + 3`. -/
def u2_branch (n : Nat) : List Int × Int :=
  (((List.range (2 ^ n)).foldl (u2_step n) ((List.range (2 ^ n)).map Int.ofNat, 0)).1,
    (n : Int) * ((n : Int) - 1) + 3)

/-- The rotation-minimum inner loop (lines 454-458): `rm` starts at `c` and
takes the minimum against the `n_samples - 1` successive left rotations. -/
def rotation_min (n c : Nat) : Nat :=
  ((List.range (n - 1)).foldl
    (fun p _ =>
      (min p.1 (circural_rotation_left p.2 1 n), circural_rotation_left p.2 1 n))
    (c, c)).1

/-- One iteration of the `ri` loop (lines 453-462): state is
`(tmp_map, new_max, table)`. -/
def ri_step (n : Nat) (st : List Int × Int × List Int) (c : Nat) :
    List Int × Int × List Int :=
  let rm := rotation_min n c
  if st.1.getD rm 0 < 0 then
    (st.1.set rm st.2.1, st.2.1 + 1, st.2.2.set c st.2.1)
  else
    (st.1, st.2.1, st.2.2.set c (st.1.getD rm 0))

/-- The `ri` branch (lines 450-462): `tmp_map` starts at `-1` everywhere,
`new_max` counts the rotation classes in order of first appearance. -/
def ri_branch (n : Nat) : List Int × Int :=
  let res := (List.range (2 ^ n)).foldl (ri_step n)
    (List.replicate (2 ^ n) (-1 : Int), (0 : Int), (List.range (2 ^ n)).map Int.ofNat)
  (res.2.2, res.2.1)

/-- One iteration of the `riu2` loop (lines 466-474). -/
def riu2_step (n : Nat) (tbl : List Int) (c : Nat) : List Int :=
  if num_trans n c ≤ 2 then tbl.set c (popcount c : Int)
  else tbl.set c ((n : Int) + 1)

/-- The `riu2` branch (lines 464-474): `new_max = n_samples + 2`. -/
def riu2_branch (n : Nat) : List Int × Int :=
  ((List.range (2 ^ n)).foldl (riu2_step n) ((List.range (2 ^ n)).map Int.ofNat),
    (n : Int) + 2)

/-- Result payload of `_lbp_mapping_table`: the `'none'` branch returns the
scalar `0` in place of a table (line 476). -/
inductive LbpTable where
  | table (t : List Int)
  | scalar (v : Int)
deriving DecidableEq

/-- `_lbp_mapping_table(n_samples, mapping_type)` (lines 411-480): dispatches
on the mapping type string; an unknown string raises `ValueError`
(embedded as `none`). -/
def _lbp_mapping_table (n_samples : Nat) (mapping_type : String) :
    Option (LbpTable × Int) :=
  if mapping_type = "u2" then
    some (.table (u2_branch n_samples).1, (u2_branch n_samples).2)
  else if mapping_type = "ri" then
    some (.table (ri_branch n_samples).1, (ri_branch n_samples).2)
  else if mapping_type = "riu2" then
    some (.table (riu2_branch n_samples).1, (riu2_branch n_samples).2)
  else if mapping_type = "none" then
    some (.scalar 0, 0)
  else
    none

/-- Rank of a code among the uniform codes in ascending order: the sequential
index the `u2` loop has reached when it meets `c`. -/
def u2_rank (n c : Nat) : Nat :=
  ((Finset.range c).filter (fun x => num_trans n x ≤ 2)).card

theorem getD_map_range {N c : Nat} (f : Nat → Int) (h : c < N) :
    (((List.range N).map f).getD c 0) = f c := by
  simp [List.getD_eq_getElem?_getD, List.getElem?_range h]

theorem getD_set_eq {α : Type _} {l : List α} {i : Nat} {v d : α} (h : i < l.length) :
    (l.set i v).getD i d = v := by
  simp [List.getD_eq_getElem?_getD, List.getElem?_set_self h]

theorem getD_set_ne {α : Type _} {l : List α} {i j : Nat} {v d : α} (h : i ≠ j) :
    (l.set i v).getD j d = l.getD j d := by
  simp [List.getD_eq_getElem?_getD, List.getElem?_set_ne h]

theorem u2_rank_succ (n k : Nat) :
    u2_rank n (k + 1) = u2_rank n k + (if num_trans n k ≤ 2 then 1 else 0) := by
  unfold u2_rank
  rw [Finset.range_succ, Finset.filter_insert]
  split
  · rw [Finset.card_insert_of_not_mem (by simp)]
  · omega

theorem u2_rank_lt_uniformCount {n c : Nat} (hc : c < 2 ^ n)
    (hu : num_trans n c ≤ 2) : u2_rank n c < uniformCount n := by
  have h1 : u2_rank n c + 1 = u2_rank n (c + 1) := by
    rw [u2_rank_succ, if_pos hu]
  have h2 : u2_rank n (c + 1) ≤ uniformCount n := by
    apply Finset.card_le_card
    apply Finset.filter_subset_filter
    intro x hx
    have := Finset.mem_range.mp hx
    exact Finset.mem_range.mpr (by omega)
  omega

/-- Invariant of the `u2` loop after the first `k` iterations. -/
theorem u2_fold_invariant (n : Nat) : ∀ k, k ≤ 2 ^ n →
    (((List.range k).foldl (u2_step n) ((List.range (2 ^ n)).map Int.ofNat, 0)).1.length
        = 2 ^ n) ∧
    (((List.range k).foldl (u2_step n) ((List.range (2 ^ n)).map Int.ofNat, 0)).2
        = (u2_rank n k : Int)) ∧
    (∀ c, c < 2 ^ n →
      ((List.range k).foldl (u2_step n) ((List.range (2 ^ n)).map Int.ofNat, 0)).1.getD c 0
        = if c < k then
            (if num_trans n c ≤ 2 then (u2_rank n c : Int)
              else ((n : Int) * ((n : Int) - 1) + 3) - 1)
          else (c : Int)) := by
  intro k
  induction k with
  | zero =>
    intro _
    refine ⟨by simp, by simp [u2_rank], ?_⟩
    intro c hc
    have h0 : ¬ (c < 0) := by omega
    rw [List.range_zero, List.foldl_nil, if_neg h0, getD_map_range Int.ofNat hc]
    rfl
  | succ k ih =>
    intro hk1
    obtain ⟨ihlen, ihidx, ihtab⟩ := ih (by omega)
    have hklt : k < 2 ^ n := by omega
    rw [List.range_succ, List.foldl_append]
    set st := (List.range k).foldl (u2_step n) ((List.range (2 ^ n)).map Int.ofNat, 0)
      with hst
    have hlen' : st.1.length = 2 ^ n := ihlen
    simp only [List.foldl_cons, List.foldl_nil]
    unfold u2_step
    split
    · rename_i hu
      refine ⟨by simp [hlen'], ?_, ?_⟩
      · simp only [ihidx, u2_rank_succ, hu, if_pos]
        push_cast
        ring
      · intro c hc
        rcases eq_or_ne k c with rfl | hne
        · rw [getD_set_eq (by omega), ihidx]
          simp [hu]
        · rw [getD_set_ne hne, ihtab c hc]
          rcases Nat.lt_or_ge c k with hck | hck
          · rw [if_pos hck, if_pos (by omega : c < k + 1)]
          · rw [if_neg (by omega : ¬ c < k), if_neg (by omega : ¬ c < k + 1)]
    · rename_i hu
      refine ⟨by simp [hlen'], ?_, ?_⟩
      · simp only [ihidx, u2_rank_succ, hu, if_neg, if_false]
        norm_num
      · intro c hc
        rcases eq_or_ne k c with rfl | hne
        · rw [getD_set_eq (by omega)]
          simp [hu]
        · rw [getD_set_ne hne, ihtab c hc]
          rcases Nat.lt_or_ge c k with hck | hck
          · rw [if_pos hck, if_pos (by omega : c < k + 1)]
          · rw [if_neg (by omega : ¬ c < k), if_neg (by omega : ¬ c < k + 1)]

/-- C1: for every `n_samples ≥ 1`, `_lbp_mapping_table(n_samples, 'u2')`
returns `new_max = n_samples * (n_samples - 1) + 3` and a table in which each
uniform code `c` (at most 2 circular bit transitions) receives the next
unused sequential index in ascending order of `c` (its rank among the
uniform codes), every non-uniform code receives the shared sentinel
`new_max - 1`, the sentinel never collides with a uniform index because
exactly `n_samples * (n_samples - 1) + 2` codes are uniform; for
`n_samples = 8`, `new_max = 59` and code `0b10101010 = 170` maps to `58`. -/
theorem lbp_mapping_table_u2 :
    (∀ n : Nat, 1 ≤ n →
      _lbp_mapping_table n "u2" =
          some (.table (u2_branch n).1, (n : Int) * ((n : Int) - 1) + 3) ∧
      (u2_branch n).1.length = 2 ^ n ∧
      (∀ c, c < 2 ^ n → num_trans n c ≤ 2 →
        (u2_branch n).1.getD c 0 = (u2_rank n c : Int)) ∧
      (∀ c, c < 2 ^ n → ¬ num_trans n c ≤ 2 →
        (u2_branch n).1.getD c 0 = ((n : Int) * ((n : Int) - 1) + 3) - 1) ∧
      uniformCount n = n * (n - 1) + 2 ∧
      (∀ c, c < 2 ^ n → num_trans n c ≤ 2 →
        (u2_branch n).1.getD c 0 ≠ ((n : Int) * ((n : Int) - 1) + 3) - 1)) ∧
    (u2_branch 8).2 = 59 ∧ (u2_branch 8).1.getD 170 0 = 58 := by
  have hmain : ∀ n : Nat, 1 ≤ n →
      _lbp_mapping_table n "u2" =
          some (.table (u2_branch n).1, (n : Int) * ((n : Int) - 1) + 3) ∧
      (u2_branch n).1.length = 2 ^ n ∧
      (∀ c, c < 2 ^ n → num_trans n c ≤ 2 →
        (u2_branch n).1.getD c 0 = (u2_rank n c : Int)) ∧
      (∀ c, c < 2 ^ n → ¬ num_trans n c ≤ 2 →
        (u2_branch n).1.getD c 0 = ((n : Int) * ((n : Int) - 1) + 3) - 1) ∧
      uniformCount n = n * (n - 1) + 2 ∧
      (∀ c, c < 2 ^ n → num_trans n c ≤ 2 →
        (u2_branch n).1.getD c 0 ≠ ((n : Int) * ((n : Int) - 1) + 3) - 1) := by
    intro n hn
    obtain ⟨hlen, _, htab⟩ := u2_fold_invariant n (2 ^ n) (le_refl _)
    have huni : ∀ c, c < 2 ^ n → num_trans n c ≤ 2 →
        (u2_branch n).1.getD c 0 = (u2_rank n c : Int) := by
      intro c hc hu
      show (((List.range (2 ^ n)).foldl (u2_step n)
        ((List.range (2 ^ n)).map Int.ofNat, 0)).1.getD c 0) = _
      rw [htab c hc, if_pos hc, if_pos hu]
    refine ⟨rfl, hlen, huni, ?_, uniformCount_eq n hn, ?_⟩
    · intro c hc hu
      show (((List.range (2 ^ n)).foldl (u2_step n)
        ((List.range (2 ^ n)).map Int.ofNat, 0)).1.getD c 0) = _
      rw [htab c hc, if_pos hc, if_neg hu]
    · intro c hc hu heq
      rw [huni c hc hu] at heq
      have h1 : u2_rank n c < uniformCount n := u2_rank_lt_uniformCount hc hu
      rw [uniformCount_eq n hn] at h1
      have h2 : ((n * (n - 1) : Nat) : Int) = (n : Int) * ((n : Int) - 1) := by
        push_cast [Nat.cast_sub hn]
        ring
      omega
  refine ⟨hmain, by norm_num [u2_branch], ?_⟩
  have h170 := (hmain 8 (by norm_num)).2.2.2.1 170 (by norm_num) (by decide)
  rw [h170]
  norm_num

/-- Witness for C1: the general statement instantiated at `n_samples = 2`
(where all four codes are uniform) and code `c = 3`. -/
theorem lbp_mapping_table_u2_witness :
    1 ≤ 2 ∧ uniformCount 2 = 2 * (2 - 1) + 2 ∧ 3 < 2 ^ 2 ∧ num_trans 2 3 ≤ 2 ∧
      (u2_branch 2).1.getD 3 0 = (u2_rank 2 3 : Int) :=
  ⟨by decide, (lbp_mapping_table_u2.1 2 (by decide)).2.2.2.2.1, by decide, by decide,
    (lbp_mapping_table_u2.1 2 (by decide)).2.2.1 3 (by decide) (by decide)⟩

/-- Invariant of the `riu2` loop after the first `k` iterations. -/
theorem riu2_fold_invariant (n : Nat) : ∀ k, k ≤ 2 ^ n →
    (((List.range k).foldl (riu2_step n) ((List.range (2 ^ n)).map Int.ofNat)).length
        = 2 ^ n) ∧
    (∀ c, c < 2 ^ n →
      ((List.range k).foldl (riu2_step n) ((List.range (2 ^ n)).map Int.ofNat)).getD c 0
        = if c < k then
            (if num_trans n c ≤ 2 then (popcount c : Int) else (n : Int) + 1)
          else (c : Int)) := by
  intro k
  induction k with
  | zero =>
    intro _
    refine ⟨by simp, ?_⟩
    intro c hc
    have h0 : ¬ (c < 0) := by omega
    rw [List.range_zero, List.foldl_nil, if_neg h0, getD_map_range Int.ofNat hc]
    rfl
  | succ k ih =>
    intro hk1
    obtain ⟨ihlen, ihtab⟩ := ih (by omega)
    have hklt : k < 2 ^ n := by omega
    rw [List.range_succ, List.foldl_append]
    set st := (List.range k).foldl (riu2_step n) ((List.range (2 ^ n)).map Int.ofNat)
      with hst
    simp only [List.foldl_cons, List.foldl_nil]
    unfold riu2_step
    split <;> rename_i hu <;> refine ⟨by simp [ihlen], ?_⟩ <;> intro c hc <;>
      rcases eq_or_ne k c with rfl | hne
    · rw [getD_set_eq (by omega), if_pos (by omega), if_pos hu]
    · rw [getD_set_ne hne, ihtab c hc]
      rcases Nat.lt_or_ge c k with hck | hck
      · rw [if_pos hck, if_pos (by omega : c < k + 1)]
      · rw [if_neg (by omega : ¬ c < k), if_neg (by omega : ¬ c < k + 1)]
    · rw [getD_set_eq (by omega), if_pos (by omega), if_neg hu]
    · rw [getD_set_ne hne, ihtab c hc]
      rcases Nat.lt_or_ge c k with hck | hck
      · rw [if_pos hck, if_pos (by omega : c < k + 1)]
      · rw [if_neg (by omega : ¬ c < k), if_neg (by omega : ¬ c < k + 1)]

/-- Every code below `2 ^ n` has at most `n` one-bits. -/
theorem popcount_le (n c : Nat) (hc : c < 2 ^ n) : popcount c ≤ n := by
  rw [popcount_eq_sum n c hc]
  calc (∑ i ∈ Finset.range n, if c.testBit i then 1 else 0)
      ≤ ∑ _i ∈ Finset.range n, 1 := by
        apply Finset.sum_le_sum
        intro i _
        split <;> omega
    _ = n := by simp

/-- C2: for every `n_samples ≥ 1`, `_lbp_mapping_table(n_samples, 'riu2')`
returns `new_max = n_samples + 2` and a table mapping every uniform code to
its popcount and every non-uniform code to `n_samples + 1`; for
`n_samples = 8`, `new_max = 10`, uniform codes map to their popcount in
`0..8` and all non-uniform codes map to `9`. -/
theorem lbp_mapping_table_riu2 :
    (∀ n : Nat, 1 ≤ n →
      _lbp_mapping_table n "riu2" =
          some (.table (riu2_branch n).1, (n : Int) + 2) ∧
      (riu2_branch n).1.length = 2 ^ n ∧
      (∀ c, c < 2 ^ n → num_trans n c ≤ 2 →
        (riu2_branch n).1.getD c 0 = (popcount c : Int) ∧ popcount c ≤ n) ∧
      (∀ c, c < 2 ^ n → ¬ num_trans n c ≤ 2 →
        (riu2_branch n).1.getD c 0 = (n : Int) + 1)) ∧
    (riu2_branch 8).2 = 10 ∧
    (∀ c, c < 2 ^ 8 → num_trans 8 c ≤ 2 →
      (riu2_branch 8).1.getD c 0 = (popcount c : Int) ∧ popcount c ≤ 8) ∧
    (∀ c, c < 2 ^ 8 → ¬ num_trans 8 c ≤ 2 → (riu2_branch 8).1.getD c 0 = 9) := by
  have hmain : ∀ n : Nat, 1 ≤ n →
      _lbp_mapping_table n "riu2" =
          some (.table (riu2_branch n).1, (n : Int) + 2) ∧
      (riu2_branch n).1.length = 2 ^ n ∧
      (∀ c, c < 2 ^ n → num_trans n c ≤ 2 →
        (riu2_branch n).1.getD c 0 = (popcount c : Int) ∧ popcount c ≤ n) ∧
      (∀ c, c < 2 ^ n → ¬ num_trans n c ≤ 2 →
        (riu2_branch n).1.getD c 0 = (n : Int) + 1) := by
    intro n _hn
    obtain ⟨hlen, htab⟩ := riu2_fold_invariant n (2 ^ n) (le_refl _)
    refine ⟨rfl, hlen, ?_, ?_⟩
    · intro c hc hu
      refine ⟨?_, popcount_le n c hc⟩
      show (((List.range (2 ^ n)).foldl (riu2_step n)
        ((List.range (2 ^ n)).map Int.ofNat)).getD c 0) = _
      rw [htab c hc, if_pos hc, if_pos hu]
    · intro c hc hu
      show (((List.range (2 ^ n)).foldl (riu2_step n)
        ((List.range (2 ^ n)).map Int.ofNat)).getD c 0) = _
      rw [htab c hc, if_pos hc, if_neg hu]
  have h8 := hmain 8 (by norm_num)
  refine ⟨hmain, by norm_num [riu2_branch], h8.2.2.1, ?_⟩
  intro c hc hu
  have := h8.2.2.2 c hc hu
  rw [this]
  norm_num

/-- Witness for C2: the general statement instantiated at `n_samples = 2`
and code `c = 1` (uniform, popcount 1). -/
theorem lbp_mapping_table_riu2_witness :
    1 ≤ 2 ∧ 1 < 2 ^ 2 ∧ num_trans 2 1 ≤ 2 ∧
      ((riu2_branch 2).1.getD 1 0 = (popcount 1 : Int) ∧ popcount 1 ≤ 2) :=
  ⟨by decide, by decide, by decide,
    (lbp_mapping_table_riu2.1 2 (by decide)).2.2.1 1 (by decide) (by decide)⟩

/-! ### Rotation orbits for the `ri` mapping -/

theorem rot_fold_snd (n c : Nat) : ∀ m : Nat,
    (((List.range m).foldl
      (fun p _ =>
        (min p.1 (circural_rotation_left p.2 1 n), circural_rotation_left p.2 1 n))
      (c, c)).2) = (fun x => circural_rotation_left x 1 n)^[m] c := by
  intro m
  induction m with
  | zero => simp
  | succ m ih =>
    rw [List.range_succ, List.foldl_append]
    simp only [List.foldl_cons, List.foldl_nil]
    rw [ih, Function.iterate_succ_apply']

theorem rot_fold_spec (n c : Nat) : ∀ m : Nat,
    (∀ j, j ≤ m →
      (((List.range m).foldl
        (fun p _ =>
          (min p.1 (circural_rotation_left p.2 1 n), circural_rotation_left p.2 1 n))
        (c, c)).1) ≤ (fun x => circural_rotation_left x 1 n)^[j] c) ∧
    (∃ j, j ≤ m ∧
      (((List.range m).foldl
        (fun p _ =>
          (min p.1 (circural_rotation_left p.2 1 n), circural_rotation_left p.2 1 n))
        (c, c)).1) = (fun x => circural_rotation_left x 1 n)^[j] c) := by
  intro m
  induction m with
  | zero =>
    constructor
    · intro j hj
      have : j = 0 := by omega
      subst this
      simp
    · exact ⟨0, le_refl _, by simp⟩
  | succ m ih =>
    obtain ⟨ihle, j0, hj0m, hj0⟩ := ih
    rw [List.range_succ, List.foldl_append]
    set st := (List.range m).foldl
      (fun p _ =>
        (min p.1 (circural_rotation_left p.2 1 n), circural_rotation_left p.2 1 n))
      (c, c) with hst
    simp only [List.foldl_cons, List.foldl_nil]
    have hsnd : circural_rotation_left st.2 1 n =
        (fun x => circural_rotation_left x 1 n)^[m + 1] c := by
      rw [rot_fold_snd n c m]
      exact (Function.iterate_succ_apply' (fun x => circural_rotation_left x 1 n) m c).symm
    constructor
    · intro j hj
      rcases Nat.lt_or_ge j (m + 1) with hjm | hjm
      · exact le_trans (min_le_left _ _) (ihle j (by omega))
      · have : j = m + 1 := by omega
        subst this
        rw [← hsnd]
        exact min_le_right _ _
    · rcases le_total st.1 (circural_rotation_left st.2 1 n) with h | h
      · exact ⟨j0, by omega, by rw [min_eq_left h, hj0]⟩
      · exact ⟨m + 1, le_refl _, by rw [min_eq_right h, hsnd]⟩

theorem rotation_min_le_iter (n c : Nat) : ∀ j, j ≤ n - 1 →
    rotation_min n c ≤ (fun x => circural_rotation_left x 1 n)^[j] c :=
  (rot_fold_spec n c (n - 1)).1

theorem rotation_min_attained (n c : Nat) : ∃ j, j ≤ n - 1 ∧
    rotation_min n c = (fun x => circural_rotation_left x 1 n)^[j] c :=
  (rot_fold_spec n c (n - 1)).2

theorem rotation_min_le_self (n c : Nat) : rotation_min n c ≤ c := by
  have := rotation_min_le_iter n c 0 (Nat.zero_le _)
  simpa using this

theorem iter_rot_lt (n c : Nat) (hc : c < 2 ^ n) :
    ∀ j, (fun x => circural_rotation_left x 1 n)^[j] c < 2 ^ n := by
  intro j
  cases j with
  | zero => simpa using hc
  | succ j =>
    rw [Function.iterate_succ_apply']
    exact circural_rotation_left_lt _ 1 n

theorem testBit_iter_rot (n : Nat) (hn : 0 < n) : ∀ (j c : Nat), c < 2 ^ n → ∀ i,
    (((fun x => circural_rotation_left x 1 n)^[j] c).testBit i) =
      (decide (i < n) && c.testBit ((i + j * (n - 1 % n)) % n)) := by
  intro j
  induction j with
  | zero =>
    intro c hc i
    simp only [Function.iterate_zero, id_eq, Nat.zero_mul, Nat.add_zero]
    rcases Nat.lt_or_ge i n with hin | hin
    · rw [Nat.mod_eq_of_lt hin]
      simp [hin]
    · have h1 : c < 2 ^ i := lt_of_lt_of_le hc (Nat.pow_le_pow_right (by norm_num) hin)
      have h2 : decide (i < n) = false := decide_eq_false (by omega)
      simp [Nat.testBit_lt_two_pow h1, h2]
  | succ j ih =>
    intro c hc i
    rw [Function.iterate_succ_apply,
      ih (circural_rotation_left c 1 n) (circural_rotation_left_lt c 1 n) i,
      testBit_circural_rotation_left c 1 n _ hn]
    rcases Nat.lt_or_ge i n with hin | hin
    · have hmod : (i + j * (n - 1 % n)) % n < n := Nat.mod_lt _ hn
      simp only [hin, hmod, decide_True, Bool.true_and]
      congr 1
      rw [Nat.mod_add_mod]
      congr 1
      ring
    · have h2 : decide (i < n) = false := decide_eq_false (by omega)
      simp [h2]

theorem iter_rot_period (n c : Nat) (hn : 0 < n) (hc : c < 2 ^ n) :
    (fun x => circural_rotation_left x 1 n)^[n] c = c := by
  apply Nat.eq_of_testBit_eq
  intro i
  rw [testBit_iter_rot n hn n c hc i]
  rcases Nat.lt_or_ge i n with hin | hin
  · rw [Nat.add_mul_mod_self_left, Nat.mod_eq_of_lt hin]
    simp [hin]
  · have h1 : c < 2 ^ i := lt_of_lt_of_le hc (Nat.pow_le_pow_right (by norm_num) hin)
    have h2 : decide (i < n) = false := decide_eq_false (by omega)
    simp [Nat.testBit_lt_two_pow h1, h2]

/-- A single left rotation does not change the rotation minimum. -/
theorem rotation_min_rot (n c : Nat) (hn : 1 ≤ n) (hc : c < 2 ^ n) :
    rotation_min n (circural_rotation_left c 1 n) = rotation_min n c := by
  have hper := iter_rot_period n c hn hc
  apply le_antisymm
  · obtain ⟨j0, hj0le, hj0⟩ := rotation_min_attained n c
    rcases Nat.eq_zero_or_pos j0 with rfl | hpos
    · -- the minimum of `c` is `c` itself, reachable from `rot c` in `n - 1` steps
      have h1 : (fun x => circural_rotation_left x 1 n)^[n - 1]
          (circural_rotation_left c 1 n) = c := by
        rw [← Function.iterate_succ_apply]
        have e : (n - 1).succ = n := by omega
        rw [e, hper]
      calc rotation_min n (circural_rotation_left c 1 n)
          ≤ (fun x => circural_rotation_left x 1 n)^[n - 1]
              (circural_rotation_left c 1 n) :=
            rotation_min_le_iter n _ (n - 1) (le_refl _)
        _ = c := h1
        _ = rotation_min n c := by simpa using hj0.symm
    · have h1 : (fun x => circural_rotation_left x 1 n)^[j0 - 1]
          (circural_rotation_left c 1 n) =
            (fun x => circural_rotation_left x 1 n)^[j0] c := by
        have e : j0 - 1 + 1 = j0 := by omega
        have h2 : (fun x => circural_rotation_left x 1 n)^[j0 - 1]
            (circural_rotation_left c 1 n) =
              (fun x => circural_rotation_left x 1 n)^[j0 - 1 + 1] c :=
          (Function.iterate_succ_apply
            (fun x => circural_rotation_left x 1 n) (j0 - 1) c).symm
        rw [h2]
        exact congrArg (fun t => (fun x => circural_rotation_left x 1 n)^[t] c) e
      calc rotation_min n (circural_rotation_left c 1 n)
          ≤ (fun x => circural_rotation_left x 1 n)^[j0 - 1]
              (circural_rotation_left c 1 n) :=
            rotation_min_le_iter n _ (j0 - 1) (by omega)
        _ = rotation_min n c := by rw [h1, ← hj0]
  · obtain ⟨s, hsle, hs⟩ := rotation_min_attained n (circural_rotation_left c 1 n)
    have hs' : rotation_min n (circural_rotation_left c 1 n) =
        (fun x => circural_rotation_left x 1 n)^[s + 1] c := by
      rw [hs, Function.iterate_succ_apply]
    rcases Nat.lt_or_ge (s + 1) n with hlt | hge
    · rw [hs']
      exact rotation_min_le_iter n c (s + 1) (by omega)
    · have : s + 1 = n := by omega
      rw [hs', this, hper]
      exact rotation_min_le_self n c

/-- Any number of left rotations leaves the rotation minimum unchanged. -/
theorem rotation_min_iter (n c : Nat) (hn : 1 ≤ n) (hc : c < 2 ^ n) : ∀ t : Nat,
    rotation_min n ((fun x => circural_rotation_left x 1 n)^[t] c) =
      rotation_min n c := by
  intro t
  induction t with
  | zero => simp
  | succ t ih =>
    rw [Function.iterate_succ_apply',
      rotation_min_rot n _ hn (iter_rot_lt n c hc t), ih]

theorem rotation_min_idem (n c : Nat) (hn : 1 ≤ n) (hc : c < 2 ^ n) :
    rotation_min n (rotation_min n c) = rotation_min n c := by
  obtain ⟨j0, _, hj0⟩ := rotation_min_attained n c
  rw [hj0, rotation_min_iter n c hn hc j0]
  exact hj0

/-- Rank of a rotation-minimum among the rotation minima in ascending order
of first appearance: the value `new_max` had when the `ri` loop created the
class. -/
def ri_rank (n x : Nat) : Nat :=
  ((Finset.range x).filter (fun y => rotation_min n y = y)).card

theorem ri_rank_succ (n k : Nat) :
    ri_rank n (k + 1) = ri_rank n k + (if rotation_min n k = k then 1 else 0) := by
  unfold ri_rank
  rw [Finset.range_succ, Finset.filter_insert]
  split
  · rw [Finset.card_insert_of_not_mem (by simp)]
  · omega

theorem getD_replicate {N x : Nat} {v : Int} (h : x < N) :
    (List.replicate N v).getD x 0 = v := by
  simp [List.getD_eq_getElem?_getD, List.getElem?_replicate, h]

/-- Invariant of the `ri` loop after the first `k` iterations: `tmp_map`
holds the class rank at already-seen rotation minima and `-1` elsewhere,
`new_max` counts the classes created so far, and the table holds the class
rank of each processed code's rotation minimum. -/
theorem ri_fold_invariant (n : Nat) (hn : 1 ≤ n) : ∀ k, k ≤ 2 ^ n →
    (((List.range k).foldl (ri_step n)
      (List.replicate (2 ^ n) (-1 : Int), (0 : Int),
        (List.range (2 ^ n)).map Int.ofNat)).1.length = 2 ^ n) ∧
    (∀ x, x < 2 ^ n →
      ((List.range k).foldl (ri_step n)
        (List.replicate (2 ^ n) (-1 : Int), (0 : Int),
          (List.range (2 ^ n)).map Int.ofNat)).1.getD x 0 =
        if rotation_min n x = x ∧ x < k then (ri_rank n x : Int) else -1) ∧
    (((List.range k).foldl (ri_step n)
      (List.replicate (2 ^ n) (-1 : Int), (0 : Int),
        (List.range (2 ^ n)).map Int.ofNat)).2.1 = (ri_rank n k : Int)) ∧
    (((List.range k).foldl (ri_step n)
      (List.replicate (2 ^ n) (-1 : Int), (0 : Int),
        (List.range (2 ^ n)).map Int.ofNat)).2.2.length = 2 ^ n) ∧
    (∀ c, c < 2 ^ n →
      ((List.range k).foldl (ri_step n)
        (List.replicate (2 ^ n) (-1 : Int), (0 : Int),
          (List.range (2 ^ n)).map Int.ofNat)).2.2.getD c 0 =
        if c < k then (ri_rank n (rotation_min n c) : Int) else (c : Int)) := by
  intro k
  induction k with
  | zero =>
    intro _
    refine ⟨by simp, ?_, by simp [ri_rank], by simp, ?_⟩
    · intro x hx
      rw [List.range_zero, List.foldl_nil]
      have h0 : ¬ (rotation_min n x = x ∧ x < 0) := by omega
      rw [if_neg h0]
      exact getD_replicate hx
    · intro c hc
      rw [List.range_zero, List.foldl_nil, if_neg (by omega : ¬ c < 0),
        getD_map_range Int.ofNat hc]
      rfl
  | succ k ih =>
    intro hk1
    obtain ⟨ihtmplen, ihtmp, ihnm, ihtablen, ihtab⟩ := ih (by omega)
    have hklt : k < 2 ^ n := by omega
    rw [List.range_succ, List.foldl_append]
    set st := (List.range k).foldl (ri_step n)
      (List.replicate (2 ^ n) (-1 : Int), (0 : Int),
        (List.range (2 ^ n)).map Int.ofNat) with hst
    simp only [List.foldl_cons, List.foldl_nil]
    have hrm_le : rotation_min n k ≤ k := rotation_min_le_self n k
    have hrm_lt : rotation_min n k < 2 ^ n := by omega
    have hrm_fix : rotation_min n (rotation_min n k) = rotation_min n k :=
      rotation_min_idem n k hn hklt
    have hgetrm : st.1.getD (rotation_min n k) 0 =
        if rotation_min n k < k then (ri_rank n (rotation_min n k) : Int) else -1 := by
      rw [ihtmp (rotation_min n k) hrm_lt]
      rcases Nat.lt_or_ge (rotation_min n k) k with h | h
      · rw [if_pos ⟨hrm_fix, h⟩, if_pos h]
      · rw [if_neg (fun hcon => absurd hcon.2 (by omega)),
          if_neg (by omega : ¬ rotation_min n k < k)]
    simp only [ri_step]
    rcases Nat.lt_or_ge (rotation_min n k) k with hrmk | hrmk
    · -- the class of `k` was created earlier: read the rank back from `tmp_map`
      have hfixk : ¬ rotation_min n k = k := by omega
      rw [hgetrm, if_pos hrmk,
        if_neg (by omega : ¬ ((ri_rank n (rotation_min n k) : Int) < 0))]
      refine ⟨ihtmplen, ?_, ?_, by simpa using ihtablen, ?_⟩
      · intro x hx
        rw [ihtmp x hx]
        by_cases hfx : rotation_min n x = x
        · rcases eq_or_ne x k with rfl | hne
          · exact absurd hfx hfixk
          rcases Nat.lt_or_ge x k with hxk | hxk
          · rw [if_pos ⟨hfx, hxk⟩, if_pos ⟨hfx, by omega⟩]
          · rw [if_neg (fun h => absurd h.2 (by omega)),
              if_neg (fun h => absurd h.2 (by omega))]
        · rw [if_neg (fun h => absurd h.1 hfx), if_neg (fun h => absurd h.1 hfx)]
      · rw [ihnm, ri_rank_succ, if_neg hfixk]
        norm_num
      · intro c hc
        rcases eq_or_ne k c with rfl | hne
        · rw [getD_set_eq (by omega : k < st.2.2.length), if_pos (by omega)]
        · rw [getD_set_ne hne, ihtab c hc]
          rcases Nat.lt_or_ge c k with hck | hck
          · rw [if_pos hck, if_pos (by omega : c < k + 1)]
          · rw [if_neg (by omega : ¬ c < k), if_neg (by omega : ¬ c < k + 1)]
    · -- first appearance of this rotation minimum: create a new class
      have hfixk : rotation_min n k = k := by omega
      rw [hgetrm, if_neg (by omega : ¬ rotation_min n k < k)]
      rw [if_pos (by norm_num : (-1 : Int) < 0)]
      rw [hfixk]
      refine ⟨by simpa using ihtmplen, ?_, ?_, by simpa using ihtablen, ?_⟩
      · intro x hx
        rcases eq_or_ne k x with rfl | hne
        · rw [getD_set_eq (by omega : k < st.1.length), ihnm,
            if_pos ⟨hfixk, by omega⟩]
        · rw [getD_set_ne hne, ihtmp x hx]
          by_cases hfx : rotation_min n x = x
          · rcases Nat.lt_or_ge x k with hxk | hxk
            · rw [if_pos ⟨hfx, hxk⟩, if_pos ⟨hfx, by omega⟩]
            · rw [if_neg (fun h => absurd h.2 (by omega)),
                if_neg (fun h => absurd h.2 (by omega))]
          · rw [if_neg (fun h => absurd h.1 hfx), if_neg (fun h => absurd h.1 hfx)]
      · rw [ihnm, ri_rank_succ, if_pos hfixk]
        push_cast
        ring
      · intro c hc
        rcases eq_or_ne k c with rfl | hne
        · rw [getD_set_eq (by omega : k < st.2.2.length), ihnm, if_pos (by omega),
            hfixk]
        · rw [getD_set_ne hne, ihtab c hc]
          rcases Nat.lt_or_ge c k with hck | hck
          · rw [if_pos hck, if_pos (by omega : c < k + 1)]
          · rw [if_neg (by omega : ¬ c < k), if_neg (by omega : ¬ c < k + 1)]

/-- The rotation classes are exactly the fixed points of `rotation_min`. -/
theorem ri_classes_eq (n : Nat) (hn : 1 ≤ n) :
    (Finset.range (2 ^ n)).filter (fun y => rotation_min n y = y) =
      (Finset.range (2 ^ n)).image (rotation_min n) := by
  ext y
  simp only [Finset.mem_filter, Finset.mem_image, Finset.mem_range]
  constructor
  · rintro ⟨hy, hfix⟩
    exact ⟨y, hy, hfix⟩
  · rintro ⟨c, hc, rfl⟩
    exact ⟨lt_of_le_of_lt (rotation_min_le_self n c) hc,
      rotation_min_idem n c hn hc⟩

/-- C3: for every `n_samples ≥ 1`, `_lbp_mapping_table(n_samples, 'ri')`
maps any two codes related by cyclic bit rotation to the identical table
entry; each rotation class receives, at the first occurrence (in ascending
code order) of its rotation minimum, the next sequential index starting at 0
(the rank of its rotation minimum among the fixed points of the
rotation-minimum map), and `new_max` equals the number of distinct rotation
classes; for `n_samples = 4`, codes `0b0011`, `0b0110`, `0b1100` and
`0b1001` all receive the same entry. -/
theorem lbp_mapping_table_ri :
    (∀ n : Nat, 1 ≤ n →
      _lbp_mapping_table n "ri" = some (.table (ri_branch n).1, (ri_branch n).2) ∧
      (ri_branch n).1.length = 2 ^ n ∧
      (ri_branch n).2 = (((Finset.range (2 ^ n)).image (rotation_min n)).card : Int) ∧
      (∀ c, c < 2 ^ n →
        (ri_branch n).1.getD c 0 = (ri_rank n (rotation_min n c) : Int)) ∧
      (∀ c, c < 2 ^ n → ∀ j : Nat,
        (ri_branch n).1.getD ((fun x => circural_rotation_left x 1 n)^[j] c) 0 =
          (ri_branch n).1.getD c 0)) ∧
    ((ri_branch 4).1.getD 3 0 = (ri_branch 4).1.getD 6 0 ∧
      (ri_branch 4).1.getD 6 0 = (ri_branch 4).1.getD 12 0 ∧
      (ri_branch 4).1.getD 12 0 = (ri_branch 4).1.getD 9 0) := by
  have hmain : ∀ n : Nat, 1 ≤ n →
      _lbp_mapping_table n "ri" = some (.table (ri_branch n).1, (ri_branch n).2) ∧
      (ri_branch n).1.length = 2 ^ n ∧
      (ri_branch n).2 = (((Finset.range (2 ^ n)).image (rotation_min n)).card : Int) ∧
      (∀ c, c < 2 ^ n →
        (ri_branch n).1.getD c 0 = (ri_rank n (rotation_min n c) : Int)) ∧
      (∀ c, c < 2 ^ n → ∀ j : Nat,
        (ri_branch n).1.getD ((fun x => circural_rotation_left x 1 n)^[j] c) 0 =
          (ri_branch n).1.getD c 0) := by
    intro n hn
    obtain ⟨_, _, hnm, htablen, htab⟩ := ri_fold_invariant n hn (2 ^ n) (le_refl _)
    have hbr1 : (ri_branch n).1 = ((List.range (2 ^ n)).foldl (ri_step n)
        (List.replicate (2 ^ n) (-1 : Int), (0 : Int),
          (List.range (2 ^ n)).map Int.ofNat)).2.2 := rfl
    have hbr2 : (ri_branch n).2 = ((List.range (2 ^ n)).foldl (ri_step n)
        (List.replicate (2 ^ n) (-1 : Int), (0 : Int),
          (List.range (2 ^ n)).map Int.ofNat)).2.1 := rfl
    have hentry : ∀ c, c < 2 ^ n →
        (ri_branch n).1.getD c 0 = (ri_rank n (rotation_min n c) : Int) := by
      intro c hc
      rw [hbr1, htab c hc, if_pos hc]
    refine ⟨rfl, by rw [hbr1]; exact htablen, ?_, hentry, ?_⟩
    · rw [hbr2, hnm, ri_rank, ← ri_classes_eq n hn]
    · intro c hc j
      have hcj : (fun x => circural_rotation_left x 1 n)^[j] c < 2 ^ n :=
        iter_rot_lt n c hc j
      rw [hentry _ hcj, hentry c hc, rotation_min_iter n c hn hc j]
  refine ⟨hmain, ?_, ?_, ?_⟩
  · have h3 := (hmain 4 (by norm_num)).2.2.2.1 3 (by norm_num)
    have h6 := (hmain 4 (by norm_num)).2.2.2.1 6 (by norm_num)
    rw [h3, h6]
    have : rotation_min 4 3 = rotation_min 4 6 := by decide
    rw [this]
  · have h6 := (hmain 4 (by norm_num)).2.2.2.1 6 (by norm_num)
    have h12 := (hmain 4 (by norm_num)).2.2.2.1 12 (by norm_num)
    rw [h6, h12]
    have : rotation_min 4 6 = rotation_min 4 12 := by decide
    rw [this]
  · have h12 := (hmain 4 (by norm_num)).2.2.2.1 12 (by norm_num)
    have h9 := (hmain 4 (by norm_num)).2.2.2.1 9 (by norm_num)
    rw [h12, h9]
    have : rotation_min 4 12 = rotation_min 4 9 := by decide
    rw [this]

/-- Witness for C3: the general statement instantiated at `n_samples = 2`,
code `c = 1`, rotation count `j = 1`. -/
theorem lbp_mapping_table_ri_witness :
    1 ≤ 2 ∧ 1 < 2 ^ 2 ∧
      ((ri_branch 2).1.getD 1 0 = (ri_rank 2 (rotation_min 2 1) : Int) ∧
        (ri_branch 2).1.getD ((fun x => circural_rotation_left x 1 2)^[1] 1) 0 =
          (ri_branch 2).1.getD 1 0) :=
  ⟨by decide, by decide,
    (lbp_mapping_table_ri.1 2 (by decide)).2.2.2.1 1 (by decide),
    (lbp_mapping_table_ri.1 2 (by decide)).2.2.2.2 1 (by decide) 1⟩

/-! ## N-dimensional arrays, `gradient`, `igo` and `es`

Pixel buffers are embedded as a shape together with a total index function
into `ℝ` (multi-indices are lists, one entry per axis; the trailing axis is
the channel axis).  `np.float` values become real numbers. -/

/-- A real-valued N-dimensional array. -/
structure NdArray where
  shape : List Nat
  val : List Nat → ℝ

/-- A multi-index is valid for a shape when it has one in-range entry per
axis. -/
def ValidIdx (shape idx : List Nat) : Prop :=
  idx.length = shape.length ∧
    ∀ a, a < shape.length → idx.getD a 0 < shape.getD a 0

/-- `np.gradient` along axis `a` of an array with the given shape: one-sided
differences at the two boundary samples, central differences (divided by 2)
at interior samples (numpy's default `edge_order=1` semantics). -/
noncomputable def npGradientAxis (shape : List Nat) (g : List Nat → ℝ) (a : Nat)
    (idx : List Nat) : ℝ :=
  let sz := shape.getD a 0
  let i := idx.getD a 0
  if i = 0 then g (idx.set a 1) - g (idx.set a 0)
  else if i = sz - 1 then g (idx.set a (sz - 1)) - g (idx.set a (sz - 2))
  else (g (idx.set a (i + 1)) - g (idx.set a (i - 1))) / 2

/-- `gradient(image_data)` (`base.py`, lines 6-35): for each channel (the
trailing axis), `np.gradient` along every spatial axis; the results are
concatenated on a new trailing axis, channel-major axis-minor
(`[C0dx, C0dy, C1dx, C1dy, ...]`). -/
noncomputable def gradient (img : NdArray) : NdArray :=
  let N := img.shape.length - 1
  { shape := img.shape.dropLast ++ [img.shape.getD N 0 * N]
    val := fun idx =>
      let k := idx.getD N 0
      npGradientAxis img.shape.dropLast
        (fun s => img.val (s ++ [k / N])) (k % N) (idx.take N) }

theorem getD_append_left {α : Type _} {l1 l2 : List α} {a : Nat} {d : α}
    (h : a < l1.length) : (l1 ++ l2).getD a d = l1.getD a d := by
  simp [List.getD_eq_getElem?_getD, List.getElem?_append_left h]

theorem getD_append_singleton {α : Type _} {l : List α} {x d : α} :
    (l ++ [x]).getD l.length d = x := by
  simp [List.getD_eq_getElem?_getD, List.getElem?_append_right (le_refl l.length)]

theorem getD_take {α : Type _} {l : List α} {n a : Nat} {d : α} (h : a < n) :
    (l.take n).getD a d = l.getD a d := by
  simp [List.getD_eq_getElem?_getD, List.getElem?_take_of_lt h]

theorem getD_dropLast {α : Type _} {l : List α} {a : Nat} {d : α}
    (h : a < l.length - 1) : l.dropLast.getD a d = l.getD a d := by
  rw [List.getD_eq_getElem?_getD, List.getD_eq_getElem?_getD, List.getElem?_dropLast,
    if_pos h]

theorem getD_append_len {α : Type _} {l : List α} {x d : α} {n : Nat}
    (h : l.length = n) : (l ++ [x]).getD n d = x := by
  subst h
  exact getD_append_singleton

theorem take_append_len {α : Type _} {l l2 : List α} {n : Nat}
    (h : l.length = n) : (l ++ l2).take n = l := by
  subst h
  exact List.take_left l l2

/-- C9: on a constant-valued buffer with at least one spatial axis, every
spatial axis of size at least 2 and at least one channel, `gradient` returns
a buffer whose shape is the spatial shape with trailing axis
`(number of spatial axes) * (number of channels)`, whose trailing index
`c * N + a` holds the axis-`a` derivative of channel `c` (channel-major
axis-minor ordering), and whose entries are all zero. -/
theorem gradient_constant (img : NdArray) (v : ℝ)
    (hrank : 2 ≤ img.shape.length)
    (hspatial : ∀ a, a < img.shape.length - 1 → 2 ≤ img.shape.getD a 0)
    (_hchan : 1 ≤ img.shape.getD (img.shape.length - 1) 0)
    (hconst : ∀ idx, ValidIdx img.shape idx → img.val idx = v) :
    (gradient img).shape =
        img.shape.dropLast ++
          [(img.shape.length - 1) * img.shape.getD (img.shape.length - 1) 0] ∧
    (∀ s c a, s.length = img.shape.length - 1 → a < img.shape.length - 1 →
      (gradient img).val (s ++ [c * (img.shape.length - 1) + a]) =
        npGradientAxis img.shape.dropLast (fun t => img.val (t ++ [c])) a s) ∧
    (∀ idx, ValidIdx (gradient img).shape idx → (gradient img).val idx = 0) := by
  set N := img.shape.length - 1 with hN
  have hNpos : 0 < N := by omega
  have hdrop : img.shape.dropLast.length = N := by
    rw [List.length_dropLast]
  have hshape : (gradient img).shape =
      img.shape.dropLast ++ [img.shape.getD N 0 * N] := rfl
  have hshapelen : img.shape.length = N + 1 := by omega
  refine ⟨?_, ?_, ?_⟩
  · rw [hshape, Nat.mul_comm]
  · intro s c a hslen ha
    simp only [gradient]
    rw [getD_append_len hslen, take_append_len hslen]
    have h3 : (c * N + a) / N = c := by
      rw [Nat.mul_comm, Nat.mul_add_div hNpos, Nat.div_eq_of_lt ha, Nat.add_zero]
    have h4 : (c * N + a) % N = a := by
      rw [Nat.mul_comm, Nat.mul_add_mod, Nat.mod_eq_of_lt ha]
    rw [h3, h4]
  · intro idx hvidx
    obtain ⟨hlen, hbounds⟩ := hvidx
    have hglen : (gradient img).shape.length = N + 1 := by
      rw [hshape]
      simp [hdrop]
    have hgetg : ∀ p, p < N → (gradient img).shape.getD p 0 = img.shape.getD p 0 := by
      intro p hp
      rw [hshape, getD_append_left (by rw [hdrop]; exact hp), getD_dropLast (by omega)]
    have hgetN : (gradient img).shape.getD N 0 = img.shape.getD N 0 * N := by
      rw [hshape]
      exact getD_append_len hdrop
    have hkb : idx.getD N 0 < img.shape.getD N 0 * N := by
      have := hbounds N (by omega)
      rwa [hgetN] at this
    have htakelen : (idx.take N).length = N := by
      rw [List.length_take, hlen, hglen]
      omega
    simp only [gradient]
    set k := idx.getD N 0 with hk
    set a := k % N with haa
    set c := k / N with hcc
    have ha : a < N := Nat.mod_lt _ hNpos
    have hc : c < img.shape.getD N 0 := by
      rw [hcc]
      exact Nat.div_lt_of_lt_mul (by rw [Nat.mul_comm] at hkb; exact hkb)
    have hsz_eq : img.shape.dropLast.getD a 0 = img.shape.getD a 0 :=
      getD_dropLast (by omega)
    have hsz2 : 2 ≤ img.shape.dropLast.getD a 0 := by
      rw [hsz_eq]
      exact hspatial a ha
    have hi_eq : (idx.take N).getD a 0 = idx.getD a 0 := getD_take ha
    have hi_lt : idx.getD a 0 < img.shape.dropLast.getD a 0 := by
      have := hbounds a (by omega)
      rw [hgetg a ha] at this
      omega
    have hval : ∀ jv, jv < img.shape.dropLast.getD a 0 →
        img.val (((idx.take N).set a jv) ++ [c]) = v := by
      intro jv hjv
      apply hconst
      constructor
      · simp only [List.length_append, List.length_set, htakelen, List.length_cons,
          List.length_nil]
        omega
      · intro p hp
        rcases Nat.lt_or_ge p N with hpN | hpN
        · rw [getD_append_left (by rw [List.length_set, htakelen]; exact hpN)]
          rcases eq_or_ne a p with rfl | hne
          · rw [getD_set_eq (by rw [htakelen]; exact ha)]
            omega
          · rw [getD_set_ne hne, getD_take hpN]
            have := hbounds p (by omega)
            rw [hgetg p hpN] at this
            exact this
        · have hpek : p = N := by
            rw [hshapelen] at hp
            omega
          subst hpek
          have hstl : ((idx.take N).set a jv).length = N := by
            rw [List.length_set, htakelen]
          rw [getD_append_len hstl]
          exact hc
    simp only [npGradientAxis]
    split
    · rw [hval 1 (by omega), hval 0 (by omega)]
      ring
    · split
      · rw [hval _ (by omega), hval _ (by omega)]
        ring
      · rename_i hne0 hnetop
        rw [hi_eq] at hne0 hnetop
        rw [hval _ (by rw [hi_eq]; omega), hval _ (by rw [hi_eq]; omega)]
        ring

/-- Witness for C9: the gradient of the all-zero `2 × 2 × 1` buffer vanishes
at index `[0, 0, 1]`. -/
theorem gradient_constant_witness :
    (gradient ⟨[2, 2, 1], fun _ => (0 : ℝ)⟩).val [0, 0, 1] = 0 :=
  (gradient_constant ⟨[2, 2, 1], fun _ => (0 : ℝ)⟩ 0 (by decide) (by decide)
    (by decide) (fun _ _ => rfl)).2.2 [0, 0, 1] ⟨by rfl, by decide⟩

/-- The feature payload built by `igo` (the `igo_data` array of
`base.py`, lines 302-308): per input channel `c`, output channels
`c * feat_channels + r` hold `cos θ`, `sin θ` (and for double angles
`cos 2θ`, `sin 2θ`) of the gradient orientation
`θ = np.angle(dx + i dy)`. -/
noncomputable def igoData (img : NdArray) (double_angles : Bool) : NdArray :=
  let feat_channels := if double_angles then 4 else 2
  { shape := [img.shape.getD 0 0, img.shape.getD 1 0,
      img.shape.getD 2 0 * feat_channels]
    val := fun idx =>
      let k := idx.getD 2 0
      let c := k / feat_channels
      let r := k % feat_channels
      let orient := Complex.arg
        ⟨(gradient img).val [idx.getD 0 0, idx.getD 1 0, 2 * c],
          (gradient img).val [idx.getD 0 0, idx.getD 1 0, 2 * c + 1]⟩
      if r = 0 then Real.cos orient
      else if r = 1 then Real.sin orient
      else if r = 2 then Real.cos (2 * orient)
      else Real.sin (2 * orient) }

/-- `igo(image_data, double_angles)` (`base.py`, lines 267-325): rejects any
input whose rank is not exactly 3, otherwise builds `igo_data`.  The model is
a pure function: the input buffer is not written to. -/
noncomputable def igo (img : NdArray) (double_angles : Bool) :
    Except String NdArray :=
  if img.shape.length ≠ 3 then
    .error "IGOs only work on 2D images. Expects image data to be 3D, shape + channels."
  else
    .ok (igoData img double_angles)

/-- C7: `igo` raises an invalid-argument error for every input whose rank is
not exactly 3; for every rank-3 input with `C` channels it returns a buffer
of the same spatial shape with `C * 2` channels (`cos θ`, `sin θ`) when
`double_angles` is false and `C * 4` channels (additionally `cos 2θ`,
`sin 2θ`) when true, each input channel's feature block contiguous in
channel-major order; the input is not mutated (the embedding is a pure
function of the input). -/
theorem igo_spec :
    (∀ (img : NdArray) (da : Bool), img.shape.length ≠ 3 →
      igo img da = .error
        "IGOs only work on 2D images. Expects image data to be 3D, shape + channels.") ∧
    (∀ (img : NdArray) (da : Bool), img.shape.length = 3 →
      igo img da = .ok (igoData img da) ∧
      (igoData img da).shape = [img.shape.getD 0 0, img.shape.getD 1 0,
        img.shape.getD 2 0 * (if da then 4 else 2)] ∧
      (∀ i j c r, r < (if da then 4 else 2) →
        (igoData img da).val [i, j, c * (if da then 4 else 2) + r] =
          (if r = 0 then Real.cos (Complex.arg
              ⟨(gradient img).val [i, j, 2 * c],
                (gradient img).val [i, j, 2 * c + 1]⟩)
            else if r = 1 then Real.sin (Complex.arg
              ⟨(gradient img).val [i, j, 2 * c],
                (gradient img).val [i, j, 2 * c + 1]⟩)
            else if r = 2 then Real.cos (2 * Complex.arg
              ⟨(gradient img).val [i, j, 2 * c],
                (gradient img).val [i, j, 2 * c + 1]⟩)
            else Real.sin (2 * Complex.arg
              ⟨(gradient img).val [i, j, 2 * c],
                (gradient img).val [i, j, 2 * c + 1]⟩)))) := by
  constructor
  · intro img da hne
    simp only [igo, if_pos hne]
  · intro img da h3
    refine ⟨by simp only [igo]; rw [if_neg (fun hcon => hcon h3)], rfl, ?_⟩
    intro i j c r hr
    have hfeat : 0 < (if da then 4 else 2) := by cases da <;> norm_num
    have hdiv : (c * (if da then 4 else 2) + r) / (if da then 4 else 2) = c := by
      rw [Nat.mul_comm, Nat.mul_add_div hfeat, Nat.div_eq_of_lt hr, Nat.add_zero]
    have hmod : (c * (if da then 4 else 2) + r) % (if da then 4 else 2) = r := by
      rw [Nat.mul_comm, Nat.mul_add_mod, Nat.mod_eq_of_lt hr]
    simp only [igoData]
    have e2 : ([i, j, c * (if da then 4 else 2) + r] : List Nat).getD 2 0 =
        c * (if da then 4 else 2) + r := rfl
    have e0 : ([i, j, c * (if da then 4 else 2) + r] : List Nat).getD 0 0 = i := rfl
    have e1 : ([i, j, c * (if da then 4 else 2) + r] : List Nat).getD 1 0 = j := rfl
    rw [e2, e0, e1, hdiv, hmod]

/-- Witness for C7: `igo` on an all-zero `2 × 2 × 1` buffer with
`double_angles = false` succeeds with 2 output channels, and rejects a
rank-2 buffer. -/
theorem igo_spec_witness :
    igo ⟨[2, 2, 1], fun _ => (0 : ℝ)⟩ false =
        .ok (igoData ⟨[2, 2, 1], fun _ => (0 : ℝ)⟩ false) ∧
      (igoData ⟨[2, 2, 1], fun _ => (0 : ℝ)⟩ false).shape = [2, 2, 2] ∧
      igo ⟨[2, 2], fun _ => (0 : ℝ)⟩ false = .error
        "IGOs only work on 2D images. Expects image data to be 3D, shape + channels." :=
  ⟨(igo_spec.2 ⟨[2, 2, 1], fun _ => (0 : ℝ)⟩ false rfl).1,
    ((igo_spec.2 ⟨[2, 2, 1], fun _ => (0 : ℝ)⟩ false rfl).2.1).trans (by decide),
    igo_spec.1 ⟨[2, 2], fun _ => (0 : ℝ)⟩ false (by decide)⟩

/-- `np.median` of a list of reals: the middle element of the sorted data
for odd length, the mean of the two middle elements for even length. -/
noncomputable def npMedian (l : List ℝ) : ℝ :=
  let s := Multiset.sort (· ≤ ·) (l : Multiset ℝ)
  if l.length % 2 = 1 then s.getD (l.length / 2) 0
  else (s.getD (l.length / 2 - 1) 0 + s.getD (l.length / 2) 0) / 2

/-- Per-pixel gradient magnitude
`np.abs(grad[..., ::2] + 1j * grad[..., 1::2])` at pixel `(i, j)`, channel
`c`: the Euclidean norm of the `(dx, dy)` pair. -/
noncomputable def esMagnitude (img : NdArray) (i j c : Nat) : ℝ :=
  Real.sqrt ((gradient img).val [i, j, 2 * c] ^ 2 +
    (gradient img).val [i, j, 2 * c + 1] ^ 2)

/-- All entries of the `(M, N, C)` gradient-magnitude array, row-major:
the data `np.median` is taken over (the whole image, all channels). -/
noncomputable def esMagnitudes (img : NdArray) : List ℝ :=
  (List.range (img.shape.getD 0 0)).flatMap fun i =>
    (List.range (img.shape.getD 1 0)).flatMap fun j =>
      (List.range (img.shape.getD 2 0)).map fun c => esMagnitude img i j c

/-- The feature payload built by `es` (the `es_data` array of `base.py`,
lines 353-358): two channels per input channel, `dx` and `dy` divided by the
biased magnitude `|(dx, dy)| + median`. -/
noncomputable def esData (img : NdArray) : NdArray :=
  { shape := [img.shape.getD 0 0, img.shape.getD 1 0, img.shape.getD 2 0 * 2]
    val := fun idx =>
      let k := idx.getD 2 0
      let c := k / 2
      let biased := esMagnitude img (idx.getD 0 0) (idx.getD 1 0) c +
        npMedian (esMagnitudes img)
      if k % 2 = 0 then
        (gradient img).val [idx.getD 0 0, idx.getD 1 0, 2 * c] / biased
      else
        (gradient img).val [idx.getD 0 0, idx.getD 1 0, 2 * c + 1] / biased }

/-- `es(image_data)` (`base.py`, lines 328-369): rejects any input whose
rank is not exactly 3, otherwise builds `es_data`. -/
noncomputable def es (img : NdArray) : Except String NdArray :=
  if img.shape.length ≠ 3 then
    .error "ES features only work on 2D images. Expects image data to be 3D, shape + channels."
  else
    .ok (esData img)

/-- C8: `es`, under the same rank-3 precondition as `igo`, returns exactly 2
output channels per input channel: `dx` and `dy` divided by the biased
magnitude, where the biased magnitude is the Euclidean norm of that pixel's
`(dx, dy)` pair plus the median of the gradient-magnitude array over the
whole image (all channels). -/
theorem es_spec :
    (∀ img : NdArray, img.shape.length ≠ 3 →
      es img = .error
        "ES features only work on 2D images. Expects image data to be 3D, shape + channels.") ∧
    (∀ img : NdArray, img.shape.length = 3 →
      es img = .ok (esData img) ∧
      (esData img).shape = [img.shape.getD 0 0, img.shape.getD 1 0,
        img.shape.getD 2 0 * 2] ∧
      (∀ i j c,
        (esData img).val [i, j, 2 * c] =
          (gradient img).val [i, j, 2 * c] /
            (Real.sqrt ((gradient img).val [i, j, 2 * c] ^ 2 +
                (gradient img).val [i, j, 2 * c + 1] ^ 2) +
              npMedian (esMagnitudes img)) ∧
        (esData img).val [i, j, 2 * c + 1] =
          (gradient img).val [i, j, 2 * c + 1] /
            (Real.sqrt ((gradient img).val [i, j, 2 * c] ^ 2 +
                (gradient img).val [i, j, 2 * c + 1] ^ 2) +
              npMedian (esMagnitudes img)))) := by
  constructor
  · intro img hne
    simp only [es, if_pos hne]
  · intro img h3
    refine ⟨by simp only [es]; rw [if_neg (fun hcon => hcon h3)], rfl, ?_⟩
    intro i j c
    constructor
    · have hdiv : 2 * c / 2 = c := Nat.mul_div_cancel_left c (by norm_num)
      have hmod : 2 * c % 2 = 0 := Nat.mul_mod_right 2 c
      simp only [esData, esMagnitude]
      have e2 : ([i, j, 2 * c] : List Nat).getD 2 0 = 2 * c := rfl
      have e0 : ([i, j, 2 * c] : List Nat).getD 0 0 = i := rfl
      have e1 : ([i, j, 2 * c] : List Nat).getD 1 0 = j := rfl
      rw [e2, e0, e1, hdiv, hmod, if_pos rfl]
    · have hdiv : (2 * c + 1) / 2 = c := by omega
      have hmod : (2 * c + 1) % 2 = 1 := by omega
      simp only [esData, esMagnitude]
      have e2 : ([i, j, 2 * c + 1] : List Nat).getD 2 0 = 2 * c + 1 := rfl
      have e0 : ([i, j, 2 * c + 1] : List Nat).getD 0 0 = i := rfl
      have e1 : ([i, j, 2 * c + 1] : List Nat).getD 1 0 = j := rfl
      rw [e2, e0, e1, hdiv, hmod]
      norm_num

/-- Witness for C8: `es` on an all-zero `2 × 2 × 1` buffer succeeds with 2
output channels, and rejects a rank-2 buffer. -/
theorem es_spec_witness :
    es ⟨[2, 2, 1], fun _ => (0 : ℝ)⟩ =
        .ok (esData ⟨[2, 2, 1], fun _ => (0 : ℝ)⟩) ∧
      (esData ⟨[2, 2, 1], fun _ => (0 : ℝ)⟩).shape = [2, 2, 2] ∧
      es ⟨[2, 2], fun _ => (0 : ℝ)⟩ = .error
        "ES features only work on 2D images. Expects image data to be 3D, shape + channels." :=
  ⟨(es_spec.2 ⟨[2, 2, 1], fun _ => (0 : ℝ)⟩ rfl).1,
    ((es_spec.2 ⟨[2, 2, 1], fun _ => (0 : ℝ)⟩ rfl).2.1).trans (by decide),
    es_spec.1 ⟨[2, 2], fun _ => (0 : ℝ)⟩ (by decide)⟩

/-! ## HOG (`hog`, `base.py`, lines 38-264)

Only the parameter validation (lines 166-199) and the pixel
pre-normalization (lines 201-210) live in this repository's Python source;
the windowed histogram computation happens inside the external C++
`CppImageWindowIterator`, which is not part of the sources.  The model
therefore returns, on a successful validation, the buffer the CALLER's
array holds after the pre-normalization step; float parameters become `ℚ`
(only exact comparisons and scaling by 255 occur).

`np.asfortranarray(x)` returns `x` itself (an alias, not a copy) when `x`
is already Fortran-contiguous, and a fresh copy otherwise; this is numpy's
documented behaviour.  The `isFortran` flag of the image records which case
applies, so the in-place `image_data *= 255.` of lines 204 and 209 reaches
the caller's buffer exactly when the flag is set.  The `verbose`,
`signed_gradient` and `padding` parameters and the `np.tile` channel
replication only affect the external iterator and are not modelled. -/

structure HogImage where
  shape0 : Nat
  shape1 : Nat
  channels : Nat
  data : List ℚ
  isFortran : Bool

instance {ε α : Type _} [DecidableEq ε] [DecidableEq α] :
    DecidableEq (Except ε α) := fun x y =>
  match x, y with
  | .ok a, .ok b =>
    if h : a = b then .isTrue (by rw [h]) else .isFalse (by simp [h])
  | .error a, .error b =>
    if h : a = b then .isTrue (by rw [h]) else .isFalse (by simp [h])
  | .ok _, .error _ => .isFalse (by simp)
  | .error _, .ok _ => .isFalse (by simp)

/-- `window_height_temp` / `window_width_temp` of lines 181-185: the window
extent resolved to pixels. -/
def resolvedWindow (w block_size cell_size : ℚ) (window_unit : String) : ℚ :=
  if window_unit = "blocks" then w * block_size * cell_size else w

/-- The validation chain of `hog` (lines 166-199): the first failing check's
message, or `none` when every check passes. -/
def hogValidate (img : HogImage) (mode algorithm : String)
    (num_bins cell_size block_size l2_norm_clip window_height window_width : ℚ)
    (window_unit : String) (window_step_vertical window_step_horizontal : ℚ)
    (window_step_unit : String) : Option String :=
  if ¬ (mode = "dense" ∨ mode = "sparse") then
    some "HOG features mode must be either dense or sparse"
  else if ¬ (algorithm = "dalaltriggs" ∨ algorithm = "zhuramanan") then
    some "Algorithm must be either dalaltriggs or zhuramanan"
  else if num_bins ≤ 0 then some "Number of orientation bins must be > 0"
  else if cell_size ≤ 0 then some "Cell size (in pixels) must be > 0"
  else if block_size ≤ 0 then some "Block size (in cells) must be > 0"
  else if l2_norm_clip ≤ 0 then some "Value for L2-norm clipping must be > 0.0"
  else if mode = "dense" ∧ ¬ (window_unit = "pixels" ∨ window_unit = "blocks") then
    some "Window unit must be either pixels or blocks"
  else if mode = "dense" ∧
      (resolvedWindow window_height block_size cell_size window_unit <
          block_size * cell_size ∨
        resolvedWindow window_height block_size cell_size window_unit >
          (img.shape0 : ℚ)) then
    some "Window height must be >= block size and <= image height"
  else if mode = "dense" ∧
      (resolvedWindow window_width block_size cell_size window_unit <
          block_size * cell_size ∨
        resolvedWindow window_width block_size cell_size window_unit >
          (img.shape1 : ℚ)) then
    some "Window width must be >= block size and <= image width"
  else if mode = "dense" ∧ window_step_horizontal ≤ 0 then
    some "Horizontal window step must be > 0"
  else if mode = "dense" ∧ window_step_vertical ≤ 0 then
    some "Vertical window step must be > 0"
  else if mode = "dense" ∧
      ¬ (window_step_unit = "pixels" ∨ window_step_unit = "cells") then
    some "Window step unit must be either pixels or cells"
  else
    none

/-- `hog` up to the hand-off to the external iterator: validation
(lines 166-199) followed by the pixel pre-normalization (lines 201-210);
the result is the buffer the CALLER's array holds after the call. -/
def hog (img : HogImage) (mode algorithm : String)
    (num_bins cell_size block_size l2_norm_clip window_height window_width : ℚ)
    (window_unit : String) (window_step_vertical window_step_horizontal : ℚ)
    (window_step_unit : String) : Except String (List ℚ) :=
  match hogValidate img mode algorithm num_bins cell_size block_size
    l2_norm_clip window_height window_width window_unit window_step_vertical
    window_step_horizontal window_step_unit with
  | some msg => .error msg
  | none =>
    if img.isFortran ∧
        (img.channels = 3 ∨ (img.channels = 1 ∧ algorithm = "zhuramanan")) then
      .ok (img.data.map (fun x => x * 255))
    else
      .ok img.data

theorem hog_eq_of_validate_some (img : HogImage) (mode algorithm : String)
    (num_bins cell_size block_size l2_norm_clip window_height window_width : ℚ)
    (window_unit : String) (window_step_vertical window_step_horizontal : ℚ)
    (window_step_unit : String) (msg : String)
    (h : hogValidate img mode algorithm num_bins cell_size block_size
      l2_norm_clip window_height window_width window_unit window_step_vertical
      window_step_horizontal window_step_unit = some msg) :
    hog img mode algorithm num_bins cell_size block_size l2_norm_clip
      window_height window_width window_unit window_step_vertical
      window_step_horizontal window_step_unit = .error msg := by
  unfold hog
  rw [h]

theorem hog_eq_of_validate_none (img : HogImage) (mode algorithm : String)
    (num_bins cell_size block_size l2_norm_clip window_height window_width : ℚ)
    (window_unit : String) (window_step_vertical window_step_horizontal : ℚ)
    (window_step_unit : String)
    (h : hogValidate img mode algorithm num_bins cell_size block_size
      l2_norm_clip window_height window_width window_unit window_step_vertical
      window_step_horizontal window_step_unit = none) :
    hog img mode algorithm num_bins cell_size block_size l2_norm_clip
      window_height window_width window_unit window_step_vertical
      window_step_horizontal window_step_unit =
      (if img.isFortran ∧
          (img.channels = 3 ∨ (img.channels = 1 ∧ algorithm = "zhuramanan")) then
        .ok (img.data.map (fun x => x * 255))
      else
        .ok img.data) := by
  unfold hog
  rw [h]

/-- The validation chain succeeds exactly when each individual check
passes. -/
theorem hogValidate_none_iff (img : HogImage) (mode algorithm : String)
    (num_bins cell_size block_size l2_norm_clip window_height window_width : ℚ)
    (window_unit : String) (window_step_vertical window_step_horizontal : ℚ)
    (window_step_unit : String) :
    hogValidate img mode algorithm num_bins cell_size block_size l2_norm_clip
        window_height window_width window_unit window_step_vertical
        window_step_horizontal window_step_unit = none ↔
      ((mode = "dense" ∨ mode = "sparse") ∧
        (algorithm = "dalaltriggs" ∨ algorithm = "zhuramanan") ∧
        ¬ num_bins ≤ 0 ∧ ¬ cell_size ≤ 0 ∧ ¬ block_size ≤ 0 ∧
        ¬ l2_norm_clip ≤ 0 ∧
        ¬ (mode = "dense" ∧ ¬ (window_unit = "pixels" ∨ window_unit = "blocks")) ∧
        ¬ (mode = "dense" ∧
          (resolvedWindow window_height block_size cell_size window_unit <
              block_size * cell_size ∨
            resolvedWindow window_height block_size cell_size window_unit >
              (img.shape0 : ℚ))) ∧
        ¬ (mode = "dense" ∧
          (resolvedWindow window_width block_size cell_size window_unit <
              block_size * cell_size ∨
            resolvedWindow window_width block_size cell_size window_unit >
              (img.shape1 : ℚ))) ∧
        ¬ (mode = "dense" ∧ window_step_horizontal ≤ 0) ∧
        ¬ (mode = "dense" ∧ window_step_vertical ≤ 0) ∧
        ¬ (mode = "dense" ∧
          ¬ (window_step_unit = "pixels" ∨ window_step_unit = "cells"))) := by
  unfold hogValidate
  by_cases h1 : ¬ (mode = "dense" ∨ mode = "sparse")
  · rw [if_pos h1]; simp [h1]
  rw [if_neg h1]
  by_cases h2 : ¬ (algorithm = "dalaltriggs" ∨ algorithm = "zhuramanan")
  · rw [if_pos h2]; simp [h1, h2]
  rw [if_neg h2]
  by_cases h3 : num_bins ≤ 0
  · rw [if_pos h3]; simp [h3]
  rw [if_neg h3]
  by_cases h4 : cell_size ≤ 0
  · rw [if_pos h4]; simp [h4]
  rw [if_neg h4]
  by_cases h5 : block_size ≤ 0
  · rw [if_pos h5]; simp [h5]
  rw [if_neg h5]
  by_cases h6 : l2_norm_clip ≤ 0
  · rw [if_pos h6]; simp [h6]
  rw [if_neg h6]
  by_cases h7 : mode = "dense" ∧ ¬ (window_unit = "pixels" ∨ window_unit = "blocks")
  · rw [if_pos h7]; simp [h7.1, h7.2]
  rw [if_neg h7]
  by_cases h8 : mode = "dense" ∧
      (resolvedWindow window_height block_size cell_size window_unit <
          block_size * cell_size ∨
        resolvedWindow window_height block_size cell_size window_unit >
          (img.shape0 : ℚ))
  · rw [if_pos h8]
    simp only [Option.some_ne_none, false_iff]
    intro hcon
    exact absurd h8 hcon.2.2.2.2.2.2.2.1
  rw [if_neg h8]
  by_cases h9 : mode = "dense" ∧
      (resolvedWindow window_width block_size cell_size window_unit <
          block_size * cell_size ∨
        resolvedWindow window_width block_size cell_size window_unit >
          (img.shape1 : ℚ))
  · rw [if_pos h9]
    simp only [Option.some_ne_none, false_iff]
    intro hcon
    exact absurd h9 hcon.2.2.2.2.2.2.2.2.1
  rw [if_neg h9]
  by_cases h10 : mode = "dense" ∧ window_step_horizontal ≤ 0
  · rw [if_pos h10]
    simp only [Option.some_ne_none, false_iff]
    intro hcon
    exact absurd h10 hcon.2.2.2.2.2.2.2.2.2.1
  rw [if_neg h10]
  by_cases h11 : mode = "dense" ∧ window_step_vertical ≤ 0
  · rw [if_pos h11]
    simp only [Option.some_ne_none, false_iff]
    intro hcon
    exact absurd h11 hcon.2.2.2.2.2.2.2.2.2.2.1
  rw [if_neg h11]
  by_cases h12 : mode = "dense" ∧
      ¬ (window_step_unit = "pixels" ∨ window_step_unit = "cells")
  · rw [if_pos h12]
    simp only [Option.some_ne_none, false_iff]
    intro hcon
    exact absurd h12 hcon.2.2.2.2.2.2.2.2.2.2.2
  rw [if_neg h12]
  simp only [true_iff]
  exact ⟨not_not.mp h1, not_not.mp h2, h3, h4, h5, h6, h7, h8, h9, h10, h11, h12⟩

/-- C5 counterexample: a Fortran-contiguous 3-channel buffer accepted by
`hog` (sparse mode, default parameters) whose caller-side values are scaled
by 255 by the call: `np.asfortranarray` aliases such an input, so the
in-place `image_data *= 255.` writes through to the caller's array. -/
theorem hog_mutates_caller_counterexample :
    hog ⟨1, 1, 3, [1, 2, 3], true⟩ "sparse" "dalaltriggs" 9 8 2 (1/5) 1 1
        "blocks" 1 1 "pixels" = .ok [255, 510, 765] ∧
      ([255, 510, 765] : List ℚ) ≠ ([1, 2, 3] : List ℚ) := by
  constructor
  · have hsd : ¬ ("sparse" : String) = "dense" := by decide
    have hnone : hogValidate ⟨1, 1, 3, [1, 2, 3], true⟩ "sparse" "dalaltriggs"
        9 8 2 (1/5) 1 1 "blocks" 1 1 "pixels" = none := by
      rw [hogValidate_none_iff]
      refine ⟨Or.inr rfl, Or.inl rfl, by norm_num, by norm_num, by norm_num,
        by norm_num, fun h => hsd h.1, fun h => hsd h.1, fun h => hsd h.1,
        fun h => hsd h.1, fun h => hsd h.1, fun h => hsd h.1⟩
    rw [hog_eq_of_validate_none _ _ _ _ _ _ _ _ _ _ _ _ _ hnone]
    norm_num
  · norm_num

/-- C5 (amended): the 255-scaling pre-normalization is performed in place on
the array returned by `np.asfortranarray`, which is a fresh copy exactly
when the input is not already Fortran-contiguous.  Hence the caller's buffer
is unchanged for every non-Fortran-contiguous input, and is scaled by 255
for a Fortran-contiguous input with 3 channels (or 1 channel under the
`zhuramanan` algorithm). -/
theorem hog_caller_buffer (img : HogImage) (mode algorithm : String)
    (num_bins cell_size block_size l2_norm_clip window_height window_width : ℚ)
    (window_unit : String) (window_step_vertical window_step_horizontal : ℚ)
    (window_step_unit : String) (res : List ℚ) :
    (hog img mode algorithm num_bins cell_size block_size l2_norm_clip
        window_height window_width window_unit window_step_vertical
        window_step_horizontal window_step_unit = .ok res →
      img.isFortran = false → res = img.data) ∧
    (hog img mode algorithm num_bins cell_size block_size l2_norm_clip
        window_height window_width window_unit window_step_vertical
        window_step_horizontal window_step_unit = .ok res →
      img.isFortran = true →
      (img.channels = 3 ∨ (img.channels = 1 ∧ algorithm = "zhuramanan")) →
      res = img.data.map (fun x => x * 255)) := by
  constructor
  · intro hok hff
    rcases hval : hogValidate img mode algorithm num_bins cell_size block_size
        l2_norm_clip window_height window_width window_unit
        window_step_vertical window_step_horizontal window_step_unit with _ | msg
    · rw [hog_eq_of_validate_none _ _ _ _ _ _ _ _ _ _ _ _ _ hval] at hok
      rw [if_neg (by simp [hff])] at hok
      exact (Except.ok.inj hok).symm
    · rw [hog_eq_of_validate_some _ _ _ _ _ _ _ _ _ _ _ _ _ _ hval] at hok
      exact Except.noConfusion hok
  · intro hok htt hch
    rcases hval : hogValidate img mode algorithm num_bins cell_size block_size
        l2_norm_clip window_height window_width window_unit
        window_step_vertical window_step_horizontal window_step_unit with _ | msg
    · rw [hog_eq_of_validate_none _ _ _ _ _ _ _ _ _ _ _ _ _ hval] at hok
      rw [if_pos (And.intro (by rw [htt]) hch)] at hok
      exact (Except.ok.inj hok).symm
    · rw [hog_eq_of_validate_some _ _ _ _ _ _ _ _ _ _ _ _ _ _ hval] at hok
      exact Except.noConfusion hok

/-- Witness for C5's amended claim: a non-Fortran-contiguous (copied) input
leaves the caller's buffer untouched. -/
theorem hog_caller_buffer_witness :
    hog ⟨1, 1, 3, [7], false⟩ "sparse" "dalaltriggs" 9 8 2 (1/5) 1 1
        "blocks" 1 1 "pixels" = .ok [7] ∧ ([7] : List ℚ) = [7] := by
  have hsd : ¬ ("sparse" : String) = "dense" := by decide
  have hnone : hogValidate ⟨1, 1, 3, [7], false⟩ "sparse" "dalaltriggs"
      9 8 2 (1/5) 1 1 "blocks" 1 1 "pixels" = none := by
    rw [hogValidate_none_iff]
    refine ⟨Or.inr rfl, Or.inl rfl, by norm_num, by norm_num, by norm_num,
      by norm_num, fun h => hsd h.1, fun h => hsd h.1, fun h => hsd h.1,
      fun h => hsd h.1, fun h => hsd h.1, fun h => hsd h.1⟩
  have hok : hog ⟨1, 1, 3, [7], false⟩ "sparse" "dalaltriggs" 9 8 2 (1/5) 1 1
      "blocks" 1 1 "pixels" = .ok [7] := by
    rw [hog_eq_of_validate_none _ _ _ _ _ _ _ _ _ _ _ _ _ hnone]
    norm_num
  exact ⟨hok,
    (hog_caller_buffer ⟨1, 1, 3, [7], false⟩ "sparse" "dalaltriggs" 9 8 2 (1/5)
      1 1 "blocks" 1 1 "pixels" [7]).1 hok rfl⟩

/-- C6: in dense mode `hog` raises a `ValueError` whenever the window height
or width resolved to pixels is below `block_size * cell_size` or above the
corresponding image dimension, and whenever a window step is `≤ 0` (so a
step of 0 raises); the mode / algorithm / num_bins / cell_size / block_size
/ l2_norm_clip / unit checks raise likewise.  The whole validation chain
precedes the pre-normalization and every other computation by construction,
mirroring lines 166-199 of the source, so a failing call performs no
partial work. -/
theorem hog_validation (img : HogImage) (mode algorithm : String)
    (num_bins cell_size block_size l2_norm_clip window_height window_width : ℚ)
    (window_unit : String) (window_step_vertical window_step_horizontal : ℚ)
    (window_step_unit : String) :
    (mode = "dense" →
      (resolvedWindow window_height block_size cell_size window_unit <
          block_size * cell_size ∨
        resolvedWindow window_height block_size cell_size window_unit >
          (img.shape0 : ℚ) ∨
        resolvedWindow window_width block_size cell_size window_unit <
          block_size * cell_size ∨
        resolvedWindow window_width block_size cell_size window_unit >
          (img.shape1 : ℚ) ∨
        window_step_vertical ≤ 0 ∨ window_step_horizontal ≤ 0) →
      ∃ msg, hog img mode algorithm num_bins cell_size block_size l2_norm_clip
        window_height window_width window_unit window_step_vertical
        window_step_horizontal window_step_unit = .error msg) ∧
    ((¬ (mode = "dense" ∨ mode = "sparse") ∨
        ¬ (algorithm = "dalaltriggs" ∨ algorithm = "zhuramanan") ∨
        num_bins ≤ 0 ∨ cell_size ≤ 0 ∨ block_size ≤ 0 ∨ l2_norm_clip ≤ 0 ∨
        (mode = "dense" ∧ ¬ (window_unit = "pixels" ∨ window_unit = "blocks")) ∨
        (mode = "dense" ∧
          ¬ (window_step_unit = "pixels" ∨ window_step_unit = "cells"))) →
      ∃ msg, hog img mode algorithm num_bins cell_size block_size l2_norm_clip
        window_height window_width window_unit window_step_vertical
        window_step_horizontal window_step_unit = .error msg) := by
  have key : ∀ hne : hogValidate img mode algorithm num_bins cell_size
      block_size l2_norm_clip window_height window_width window_unit
      window_step_vertical window_step_horizontal window_step_unit ≠ none,
      ∃ msg, hog img mode algorithm num_bins cell_size block_size l2_norm_clip
        window_height window_width window_unit window_step_vertical
        window_step_horizontal window_step_unit = .error msg := by
    intro hne
    rcases hval : hogValidate img mode algorithm num_bins cell_size block_size
        l2_norm_clip window_height window_width window_unit
        window_step_vertical window_step_horizontal window_step_unit with _ | msg
    · exact absurd hval hne
    · exact ⟨msg, hog_eq_of_validate_some _ _ _ _ _ _ _ _ _ _ _ _ _ _ hval⟩
  constructor
  · intro hdense hbad
    apply key
    intro hnone
    rw [hogValidate_none_iff] at hnone
    obtain ⟨-, -, -, -, -, -, -, hh, hw, hsh, hsv, -⟩ := hnone
    rcases hbad with h | h | h | h | h | h
    · exact hh ⟨hdense, Or.inl h⟩
    · exact hh ⟨hdense, Or.inr h⟩
    · exact hw ⟨hdense, Or.inl h⟩
    · exact hw ⟨hdense, Or.inr h⟩
    · exact hsv ⟨hdense, h⟩
    · exact hsh ⟨hdense, h⟩
  · intro hbad
    apply key
    intro hnone
    rw [hogValidate_none_iff] at hnone
    obtain ⟨hm, ha, hb, hc, hbl, hl2, hu, -, -, -, -, hsu⟩ := hnone
    rcases hbad with h | h | h | h | h | h | h | h
    · exact h hm
    · exact h ha
    · exact hb h
    · exact hc h
    · exact hbl h
    · exact hl2 h
    · exact hu h
    · exact hsu h

/-- Witness for C6: dense mode with a zero vertical window step raises. -/
theorem hog_validation_witness :
    ("dense" : String) = "dense" ∧
      ∃ msg, hog ⟨64, 64, 1, [0], false⟩ "dense" "dalaltriggs" 9 8 2 (1/5)
        16 16 "pixels" 0 1 "pixels" = .error msg :=
  ⟨rfl,
    (hog_validation ⟨64, 64, 1, [0], false⟩ "dense" "dalaltriggs" 9 8 2 (1/5)
      16 16 "pixels" 0 1 "pixels").1 rfl
      (Or.inr (Or.inr (Or.inr (Or.inr (Or.inl (by norm_num))))))⟩

/-! ## `lbp` (`base.py`, lines 372-408)

The public `lbp` function validates its options and then returns the
constant `0` (line 408): the feature computation is a stub.  The
`radius` and `samples` parameters are a Python int or a list of ints,
embedded as `Sum Int (List Int)`; `sum(r < 1 for r in radius) > 0` is
`countP`. -/

def lbpAfterSamples (mapping_type mode : String) : Except String Nat :=
  if mapping_type ∉ (["u2", "ri", "riu2", "none"] : List String) then
    .error "LBP features mapping type must be u2, ri, riu2 or none"
  else if mode ∉ (["image", "hist"] : List String) then
    .error "LBP features mode must be either image or hist"
  else
    .ok 0

def lbpAfterRadius (samples : Sum Int (List Int)) (mapping_type mode : String) :
    Except String Nat :=
  match samples with
  | .inl s =>
    if s < 1 then .error "LBP features samples must be greater than 0"
    else lbpAfterSamples mapping_type mode
  | .inr ss =>
    if ss.countP (fun s => decide (s < 1)) > 0 then
      .error "LBP features list of samples must be greater than 0"
    else lbpAfterSamples mapping_type mode

def lbp (radius samples : Sum Int (List Int)) (mapping_type mode : String) :
    Except String Nat :=
  match radius with
  | .inl r =>
    if r < 1 then .error "LBP features radius must be greater than 0"
    else lbpAfterRadius samples mapping_type mode
  | .inr rs =>
    if rs.countP (fun r => decide (r < 1)) > 0 then
      .error "LBP features list of radius must be greater than 0"
    else lbpAfterRadius samples mapping_type mode

/-- A radius/samples argument passes validation when the int is at least 1,
or every element of the list is at least 1. -/
def radiusOk : Sum Int (List Int) → Prop
  | .inl r => 1 ≤ r
  | .inr rs => rs.countP (fun r => decide (r < 1)) = 0

/-- C10: for every argument combination that passes `lbp`'s validation the
function returns the integer 0 and computes no features; invalid values of
radius, samples, mapping type or mode raise a `ValueError` naming the
violated constraint. -/
theorem lbp_spec :
    (∀ (radius samples : Sum Int (List Int)) (mapping_type mode : String),
      radiusOk radius → radiusOk samples →
      mapping_type ∈ (["u2", "ri", "riu2", "none"] : List String) →
      mode ∈ (["image", "hist"] : List String) →
      lbp radius samples mapping_type mode = .ok 0) ∧
    (∀ (samples : Sum Int (List Int)) (mapping_type mode : String) (r : Int),
      r < 1 → lbp (.inl r) samples mapping_type mode =
        .error "LBP features radius must be greater than 0") ∧
    (∀ (samples : Sum Int (List Int)) (mapping_type mode : String)
        (rs : List Int), 0 < rs.countP (fun r => decide (r < 1)) →
      lbp (.inr rs) samples mapping_type mode =
        .error "LBP features list of radius must be greater than 0") ∧
    (∀ (radius : Sum Int (List Int)) (mapping_type mode : String) (s : Int),
      radiusOk radius → s < 1 → lbp radius (.inl s) mapping_type mode =
        .error "LBP features samples must be greater than 0") ∧
    (∀ (radius : Sum Int (List Int)) (mapping_type mode : String)
        (ss : List Int), radiusOk radius →
      0 < ss.countP (fun s => decide (s < 1)) →
      lbp radius (.inr ss) mapping_type mode =
        .error "LBP features list of samples must be greater than 0") ∧
    (∀ (radius samples : Sum Int (List Int)) (mapping_type mode : String),
      radiusOk radius → radiusOk samples →
      mapping_type ∉ (["u2", "ri", "riu2", "none"] : List String) →
      lbp radius samples mapping_type mode =
        .error "LBP features mapping type must be u2, ri, riu2 or none") ∧
    (∀ (radius samples : Sum Int (List Int)) (mapping_type mode : String),
      radiusOk radius → radiusOk samples →
      mapping_type ∈ (["u2", "ri", "riu2", "none"] : List String) →
      mode ∉ (["image", "hist"] : List String) →
      lbp radius samples mapping_type mode =
        .error "LBP features mode must be either image or hist") := by
  have hrad : ∀ (radius samples : Sum Int (List Int)) (mt mo : String),
      radiusOk radius →
      lbp radius samples mt mo = lbpAfterRadius samples mt mo := by
    intro radius samples mt mo hok
    cases radius with
    | inl r =>
      simp only [radiusOk] at hok
      simp only [lbp, if_neg (by omega : ¬ r < 1)]
    | inr rs =>
      simp only [radiusOk] at hok
      simp [lbp, hok]
  have hsamp : ∀ (samples : Sum Int (List Int)) (mt mo : String),
      radiusOk samples →
      lbpAfterRadius samples mt mo = lbpAfterSamples mt mo := by
    intro samples mt mo hok
    cases samples with
    | inl s =>
      simp only [radiusOk] at hok
      simp only [lbpAfterRadius, if_neg (by omega : ¬ s < 1)]
    | inr ss =>
      simp only [radiusOk] at hok
      simp [lbpAfterRadius, hok]
  refine ⟨?_, ?_, ?_, ?_, ?_, ?_, ?_⟩
  · intro radius samples mt mo hr hs hmap hmode
    rw [hrad radius samples mt mo hr, hsamp samples mt mo hs]
    simp only [lbpAfterSamples, if_neg (not_not_intro hmap), if_neg (not_not_intro hmode)]
  · intro samples mt mo r hr
    simp only [lbp, if_pos hr]
  · intro samples mt mo rs hrs
    simp only [lbp, if_pos hrs]
  · intro radius mt mo s hr hs
    rw [hrad radius (.inl s) mt mo hr]
    simp only [lbpAfterRadius, if_pos hs]
  · intro radius mt mo ss hr hss
    rw [hrad radius (.inr ss) mt mo hr]
    simp only [lbpAfterRadius, if_pos hss]
  · intro radius samples mt mo hr hs hmap
    rw [hrad radius samples mt mo hr, hsamp samples mt mo hs]
    simp only [lbpAfterSamples, if_pos hmap]
  · intro radius samples mt mo hr hs hmap hmode
    rw [hrad radius samples mt mo hr, hsamp samples mt mo hs]
    simp only [lbpAfterSamples, if_neg (not_not_intro hmap), if_pos hmode]

/-- Witness for C10: a fully valid call returns 0, and a zero radius
raises. -/
theorem lbp_spec_witness :
    lbp (.inl 1) (.inl 8) "riu2" "image" = .ok 0 ∧
      lbp (.inl 0) (.inl 8) "riu2" "image" =
        .error "LBP features radius must be greater than 0" :=
  ⟨lbp_spec.1 (.inl 1) (.inl 8) "riu2" "image" (by simp [radiusOk])
      (by simp [radiusOk]) (by decide) (by decide),
    lbp_spec.2.1 (.inl 8) "riu2" "image" 0 (by decide)⟩

end Menpo
